import Mathlib

/-!
Verification of the SVG path-segment clustering engine
(`scripts/svg_path_clustering/`): data model, command parsing, spatial
indexing, adjacency construction, chain ordering and command reversal.

Embedding conventions:
* Python floats are modelled by exact rationals (`ℚ`).
* Euclidean distances appear only in comparisons (`dist ≤ tol`) and in the
  sort key `(distance, segment_id)`.  Since `Real.sqrt` is monotone, both are
  represented by the squared distance `dist2` compared against `tol ^ 2`;
  this is value-for-value faithful whenever the tolerance is nonnegative,
  and every theorem below that quantifies over tolerances assumes `0 < tol`.
* Python `dict`s keyed by insertion are modelled by association lists or by
  total functions obtained from first/last-occurrence lookup, matching the
  source's access patterns.
* `while` loops are modelled by fuelled recursion with a fuel bound that the
  corresponding loop can never exceed (each iteration of the chain walk
  consumes a fresh unvisited member of the component).
-/

namespace GuitarSvg

/-! ### Kernel-evaluable rational arithmetic

The rational field operations of this toolchain are deliberately
`@[irreducible]`, so closed terms built from them cannot be evaluated by
`decide`.  The embedding therefore computes with the following operations,
defined directly on numerators and denominators via `mkRat`; each is proved
equal to (or a characterization of) the corresponding field operation, so
general theorems can reason with ordinary field algebra while concrete
witnesses evaluate by kernel reduction. -/

/-- Kernel-evaluable addition on `ℚ`. -/
def radd (a b : ℚ) : ℚ := mkRat (a.num * b.den + b.num * a.den) (a.den * b.den)

/-- Kernel-evaluable multiplication on `ℚ`. -/
def rmul (a b : ℚ) : ℚ := mkRat (a.num * b.num) (a.den * b.den)

/-- Kernel-evaluable negation on `ℚ`. -/
def rneg (a : ℚ) : ℚ := mkRat (-a.num) a.den

/-- Kernel-evaluable subtraction on `ℚ`. -/
def rsub (a b : ℚ) : ℚ := radd a (rneg b)

/-- Kernel-evaluable `≤` test on `ℚ`. -/
def rle (a b : ℚ) : Bool := a.num * b.den ≤ b.num * a.den

/-- Kernel-evaluable `<` test on `ℚ`. -/
def rlt (a b : ℚ) : Bool := a.num * b.den < b.num * a.den

/-- Kernel-evaluable floor on `ℚ`. -/
def rfloor (a : ℚ) : ℤ := a.num / a.den

theorem radd_eq (a b : ℚ) : radd a b = a + b := by
  rw [radd, Rat.mkRat_eq_div]
  push_cast
  conv_rhs => rw [← Rat.num_div_den a, ← Rat.num_div_den b,
    div_add_div _ _ (by positivity) (by positivity)]
  ring_nf

theorem rmul_eq (a b : ℚ) : rmul a b = a * b := by
  rw [rmul, Rat.mkRat_eq_div]
  push_cast
  conv_rhs => rw [← Rat.num_div_den a, ← Rat.num_div_den b, div_mul_div_comm]

theorem rneg_eq (a : ℚ) : rneg a = -a := by
  rw [rneg, Rat.mkRat_eq_div]
  push_cast
  rw [neg_div, Rat.num_div_den]

theorem rsub_eq (a b : ℚ) : rsub a b = a - b := by
  rw [rsub, radd_eq, rneg_eq, sub_eq_add_neg]

theorem rle_iff (a b : ℚ) : rle a b = true ↔ a ≤ b := by
  rw [rle, Rat.le_def]
  simp

theorem rlt_iff (a b : ℚ) : rlt a b = true ↔ a < b := by
  rw [rlt, Rat.lt_def]
  simp

theorem rfloor_eq (a : ℚ) : rfloor a = ⌊a⌋ := by
  rw [rfloor, Rat.floor_def]

/-- Kernel-evaluable `⌊x / c⌋` (used for grid cell coordinates); by the
convention `Int.ediv _ 0 = 0` it returns `0` when `c = 0`, matching the total
model `⌊x / 0⌋ = 0`. -/
def rfloorDiv (x c : ℚ) : ℤ :=
  let n := x.num * c.den
  let d := x.den * c.num
  if 0 ≤ d then n / d else (-n) / (-d)

theorem mul_den_eq_num (x : ℚ) : x * (x.den : ℚ) = (x.num : ℚ) := by
  have hden : ((x.den : ℚ)) ≠ 0 := Nat.cast_ne_zero.mpr x.den_nz
  nth_rewrite 1 [← Rat.num_div_den x]
  rw [div_mul_cancel₀ _ hden]

theorem div_eq_intCast_div (x c : ℚ) (hc : c ≠ 0) :
    x / c = ((x.num * c.den : ℤ) : ℚ) / (((x.den : ℤ) * c.num : ℤ) : ℚ) := by
  have hcnum : (c.num : ℚ) ≠ 0 := by
    simpa [Rat.num_eq_zero] using hc
  have hxden : ((x.den : ℚ)) ≠ 0 := Nat.cast_ne_zero.mpr x.den_nz
  have hd : (((x.den : ℤ) * c.num : ℤ) : ℚ) ≠ 0 := by
    push_cast
    exact mul_ne_zero hxden hcnum
  rw [div_eq_div_iff hc hd]
  push_cast
  calc x * ((x.den : ℚ) * (c.num : ℚ))
      = (x * (x.den : ℚ)) * (c.num : ℚ) := by ring
    _ = (x.num : ℚ) * (c.num : ℚ) := by rw [mul_den_eq_num]
    _ = ((x.num : ℚ) * (c.den : ℚ)) * c := by
        rw [mul_assoc, mul_comm (c.den : ℚ) c, mul_den_eq_num]

theorem rfloorDiv_eq (x c : ℚ) (hc : c ≠ 0) : rfloorDiv x c = ⌊x / c⌋ := by
  have hbase := div_eq_intCast_div x c hc
  have hcnum : c.num ≠ 0 := by
    simpa [Rat.num_eq_zero] using hc
  have hxden : (x.den : ℤ) ≠ 0 := by
    exact_mod_cast x.den_nz
  have hd : (x.den : ℤ) * c.num ≠ 0 := mul_ne_zero hxden hcnum
  rw [rfloorDiv, hbase]
  rcases lt_or_gt_of_ne hd with hneg | hpos
  · rw [if_neg (by omega)]
    have h2 : ((x.num * c.den : ℤ) : ℚ) / (((x.den : ℤ) * c.num : ℤ) : ℚ)
        = ((-(x.num * c.den) : ℤ) : ℚ) / ((((-((x.den : ℤ) * c.num)).toNat : ℕ)) : ℚ) := by
      have ht : ((((-((x.den : ℤ) * c.num)).toNat : ℕ)) : ℚ)
          = ((-((x.den : ℤ) * c.num) : ℤ) : ℚ) := by
        have : (((-((x.den : ℤ) * c.num)).toNat : ℕ) : ℤ) = -((x.den : ℤ) * c.num) := by
          omega
        exact_mod_cast congrArg (fun z : ℤ => (z : ℚ)) this
      rw [ht]
      push_cast
      rw [neg_div_neg_eq]
    rw [h2, Rat.floor_intCast_div_natCast]
    congr 1
    omega
  · rw [if_pos (le_of_lt hpos)]
    have h2 : ((x.num * c.den : ℤ) : ℚ) / (((x.den : ℤ) * c.num : ℤ) : ℚ)
        = ((x.num * c.den : ℤ) : ℚ) / (((((x.den : ℤ) * c.num).toNat : ℕ)) : ℚ) := by
      have ht : (((((x.den : ℤ) * c.num).toNat : ℕ)) : ℚ)
          = (((x.den : ℤ) * c.num : ℤ) : ℚ) := by
        have : ((((x.den : ℤ) * c.num).toNat : ℕ) : ℤ) = (x.den : ℤ) * c.num := by
          omega
        exact_mod_cast congrArg (fun z : ℤ => (z : ℚ)) this
      rw [ht]
    rw [h2, Rat.floor_intCast_div_natCast]
    congr 1
    omega

/-- 2D point with rational coordinates (`types.Point`). -/
structure Point where
  x : ℚ
  y : ℚ
deriving DecidableEq

/-- Squared Euclidean distance between two points.  The source computes
`sqrt (dx*dx + dy*dy)`; all its uses are order comparisons, which the squared
form represents exactly (for nonnegative bounds). -/
def dist2 (p q : Point) : ℚ :=
  radd (rmul (rsub p.x q.x) (rsub p.x q.x)) (rmul (rsub p.y q.y) (rsub p.y q.y))

theorem dist2_eq (p q : Point) :
    dist2 p q = (p.x - q.x) * (p.x - q.x) + (p.y - q.y) * (p.y - q.y) := by
  rw [dist2, radd_eq, rmul_eq, rmul_eq, rsub_eq, rsub_eq]

/-- `Point.is_near`: the source tests `distance_to(other) <= tolerance`;
squared form, faithful for `0 ≤ tolerance`. -/
def is_near (p q : Point) (tolerance : ℚ) : Bool :=
  rle (dist2 p q) (rmul tolerance tolerance)

theorem is_near_iff (p q : Point) (t : ℚ) :
    is_near p q t = true ↔ dist2 p q ≤ t ^ 2 := by
  rw [is_near, rle_iff, rmul_eq, sq]

/-- Visual style fingerprint (`types.VisualAttrs`). -/
structure VisualAttrs where
  stroke_width : ℚ
  stroke_color : String
deriving DecidableEq

/-- One input path fragment (`types.PathSegment`). -/
structure PathSegment where
  segment_id : ℕ
  start : Point
  seg_end : Point
  d_attribute : String
  visual_attrs : VisualAttrs
  is_closed : Bool
deriving DecidableEq

instance : Inhabited PathSegment :=
  ⟨{ segment_id := 0, start := ⟨0, 0⟩, seg_end := ⟨0, 0⟩, d_attribute := ""
     visual_attrs := ⟨1, ""⟩, is_closed := false }⟩

/-- One output chain (`types.PathChain`); the Python tuple of segment ids is a
Lean list. -/
structure PathChain where
  chain_id : ℕ
  segment_ids : List ℕ
  merged_d : String
  visual_attrs : VisualAttrs
  is_loop : Bool
deriving DecidableEq

/-- `types.ClusterStats`. -/
structure ClusterStats where
  total_input_segments : ℕ
  total_chains : ℕ
  orphan_count : ℕ
  loop_count : ℕ
  max_chain_length : ℕ
  avg_chain_length : ℚ
deriving DecidableEq

/-- `types.ClusterResult`. -/
structure ClusterResult where
  chains : List PathChain
  orphan_segments : List PathSegment
  stats : ClusterStats
deriving DecidableEq

/-- `ClusterResult.create`: factory computing the statistics snapshot. -/
def ClusterResult.create (chains : List PathChain) (orphans : List PathSegment)
    (total_input : ℕ) : ClusterResult :=
  let chain_lengths := chains.map (fun c => c.segment_ids.length)
  let loop_count := (chains.filter (fun c => c.is_loop)).length
  { chains := chains
    orphan_segments := orphans
    stats :=
      { total_input_segments := total_input
        total_chains := chains.length
        orphan_count := orphans.length
        loop_count := loop_count
        max_chain_length := chain_lengths.foldl Nat.max 0
        avg_chain_length :=
          if chain_lengths.length = 0 then 0
          else ((chain_lengths.map (fun n => (n : ℚ))).sum) / chain_lengths.length } }

/-! ## Command parsing (`parsing.parse_path_d` = `merging.parse_path_commands`)

The source tokenizes a `d` attribute with the regular expression
`([MmLlHhVvCcSsQqTtAaZz])([^MmLlHhVvCcSsQqTtAaZz]*)` and converts each
numeric token `-?[0-9.]+(?:[eE][+-]?[0-9]+)?` with Python's `float`.
Commands are single characters, modelled as `Char`; a parsed command is a
`Char` together with its flat list of rational arguments. -/

/-- A parsed path command: the command letter and its numeric arguments. -/
abbrev PathCmd := Char × List ℚ

/-- The command alphabet of the tokenizer regular expression. -/
def isCmdChar (c : Char) : Bool :=
  c = 'M' || c = 'm' || c = 'L' || c = 'l' || c = 'H' || c = 'h' ||
  c = 'V' || c = 'v' || c = 'C' || c = 'c' || c = 'S' || c = 's' ||
  c = 'Q' || c = 'q' || c = 'T' || c = 't' || c = 'A' || c = 'a' ||
  c = 'Z' || c = 'z'

/-- Characters matched by the numeric-token body `[0-9.]`. -/
def isNumChar (c : Char) : Bool := c.isDigit || c = '.'

/-- A scanned numeric token: leading minus sign, body (digits and dots), and
an optional exponent (sign-is-minus, digits). -/
structure NumTok where
  neg : Bool
  body : List Char
  exp : Option (Bool × List Char)
deriving DecidableEq

/-- Try to consume the exponent group `(?:[eE][+-]?[0-9]+)` at the head of the
input; the regular expression only commits to it when at least one exponent
digit follows. -/
def tryExp : List Char → Option (Bool × List Char) × List Char
  | 'e' :: rest => tryExpTail rest
  | 'E' :: rest => tryExpTail rest
  | other => (none, other)
where
  tryExpTail : List Char → Option (Bool × List Char) × List Char
    | '+' :: r =>
      match r.span Char.isDigit with
      | ([], _) => (none, 'e' :: '+' :: r)
      | (ds, rest) => (some (false, ds), rest)
    | '-' :: r =>
      match r.span Char.isDigit with
      | ([], _) => (none, 'e' :: '-' :: r)
      | (ds, rest) => (some (true, ds), rest)
    | r =>
      match r.span Char.isDigit with
      | ([], _) => (none, 'e' :: r)
      | (ds, rest) => (some (false, ds), rest)

/-- Left-to-right scan of `re.findall` for the numeric-token pattern: at each
position a match is attempted (optional minus, then one or more of `[0-9.]`,
then the optional exponent group); on failure the scan advances one
character. -/
def scanNums : ℕ → List Char → List NumTok
  | 0, _ => []
  | _, [] => []
  | fuel + 1, c :: cs =>
    if c = '-' then
      match cs.span isNumChar with
      | ([], _) => scanNums fuel cs
      | (body, rest) =>
        let (e, rest') := tryExp rest
        ⟨true, body, e⟩ :: scanNums fuel rest'
    else if isNumChar c then
      let (body, rest) := (c :: cs).span isNumChar
      let (e, rest') := tryExp rest
      ⟨false, body, e⟩ :: scanNums fuel rest'
    else scanNums fuel cs

/-- Numeric value of a digit list. -/
def digitsVal (ds : List Char) : ℕ :=
  ds.foldl (fun a c => a * 10 + (c.toNat - 48)) 0

/-- Python `float` on a scanned token.  The token body has at least one
character from `[0-9.]`; bodies Python's `float` rejects (more than one dot,
or a bare dot) raise there and never arise from well-formed numerals — they
are mapped to `0` here, and every string this development evaluates the
parser on is well-formed. -/
def pyFloatTok (t : NumTok) : ℚ :=
  let dots := (t.body.filter (fun c => c = '.')).length
  if 1 < dots then 0
  else if t.body.all (fun c => c = '.') then 0
  else
    let intPart := t.body.takeWhile (fun c => c ≠ '.')
    let fracPart := (t.body.dropWhile (fun c => c ≠ '.')).drop 1
    let mantNum : ℤ := (digitsVal intPart : ℤ) * 10 ^ fracPart.length + digitsVal fracPart
    let mantDen : ℕ := 10 ^ fracPart.length
    let withExp : ℚ :=
      match t.exp with
      | none => mkRat mantNum mantDen
      | some (eneg, ds) =>
        if eneg then mkRat mantNum (mantDen * 10 ^ digitsVal ds)
        else mkRat (mantNum * 10 ^ digitsVal ds) mantDen
    if t.neg then rneg withExp else withExp

/-- Split the character stream at command letters, pairing each command letter
with the argument characters that follow it; characters before the first
command letter are not matched by the tokenizer and are dropped. -/
def splitCmds : ℕ → List Char → List (Char × List Char)
  | 0, _ => []
  | _, [] => []
  | fuel + 1, c :: cs =>
    if isCmdChar c then
      let (argChs, rest) := cs.span (fun ch => ¬ isCmdChar ch)
      (c, argChs) :: splitCmds fuel rest
    else splitCmds fuel cs

/-- `merging.parse_path_commands` (identical to `parsing.parse_path_d`). -/
def parse_path_commands (d : String) : List PathCmd :=
  (splitCmds (d.length + 1) d.toList).map
    (fun p => (p.1, (scanNums (p.2.length + 1) p.2).map pyFloatTok))

/-- `parsing.parse_path_d` — same code as `merging.parse_path_commands`. -/
def parse_path_d (d : String) : List PathCmd := parse_path_commands d

/-! ## Argument chunking

The source's `for i in range(0, len(args) - k + 1, k)` loops process the
argument list in chunks of `k`, ignoring a trailing incomplete chunk. -/

/-- Coordinate pairs (`range(0, len(args) - 1, 2)`). -/
def chunks2 : List ℚ → List (ℚ × ℚ)
  | x :: y :: rest => (x, y) :: chunks2 rest
  | _ => []

/-- Chunks of four (`range(0, len(args) - 3, 4)`). -/
def chunks4 : List ℚ → List (ℚ × ℚ × ℚ × ℚ)
  | a :: b :: c :: d :: rest => (a, b, c, d) :: chunks4 rest
  | _ => []

/-- Chunks of six (`range(0, len(args) - 5, 6)`). -/
def chunks6 : List ℚ → List (ℚ × ℚ × ℚ × ℚ × ℚ × ℚ)
  | a :: b :: c :: d :: e :: f :: rest => (a, b, c, d, e, f) :: chunks6 rest
  | _ => []

/-- Chunks of seven (`range(0, len(args) - 6, 7)`). -/
def chunks7 : List ℚ → List (ℚ × ℚ × ℚ × ℚ × ℚ × ℚ × ℚ)
  | a :: b :: c :: d :: e :: f :: g :: rest => (a, b, c, d, e, f, g) :: chunks7 rest
  | _ => []

/-! ## `merging.reverse_path_commands`

Pass 1 expands every command into "extended" entries
`(cmd, args, start_point, end_point)` while tracking the current point and
the subpath start; pass 2 emits a move to the last drawing end point and
rewrites each non-move entry in reverse order. -/

/-- One entry of the extended command list of `reverse_path_commands`. -/
structure ExtCmd where
  cmd : Char
  args : List ℚ
  sp : Point
  ep : Point
deriving DecidableEq

/-- Threads a state through a list collecting one output per element — the
shape of the source's argument-chunk loops, each of which appends one entry
per chunk while advancing the current point. -/
def mapThread {α β σ : Type} (f : σ → α → β × σ) : σ → List α → List β × σ
  | s, [] => ([], s)
  | s, a :: as =>
    let (b, s') := f s a
    let (bs, s'') := mapThread f s' as
    (b :: bs, s'')

/-- Absolute line chunk (`L`, and the implicit linetos of `M`). -/
def lineAbsStep (cur : Point) (p : ℚ × ℚ) : ExtCmd × Point :=
  let np : Point := ⟨p.1, p.2⟩
  (⟨'L', [np.x, np.y], cur, np⟩, np)

/-- Relative line chunk (`l`). -/
def lineRelStep (cur : Point) (p : ℚ × ℚ) : ExtCmd × Point :=
  let np : Point := ⟨radd cur.x p.1, radd cur.y p.2⟩
  (⟨'L', [np.x, np.y], cur, np⟩, np)

/-- Absolute horizontal line value (`H`). -/
def hAbsStep (cur : Point) (v : ℚ) : ExtCmd × Point :=
  let np : Point := ⟨v, cur.y⟩
  (⟨'L', [np.x, np.y], cur, np⟩, np)

/-- Relative horizontal line value (`h`). -/
def hRelStep (cur : Point) (v : ℚ) : ExtCmd × Point :=
  let np : Point := ⟨radd cur.x v, cur.y⟩
  (⟨'L', [np.x, np.y], cur, np⟩, np)

/-- Absolute vertical line value (`V`). -/
def vAbsStep (cur : Point) (v : ℚ) : ExtCmd × Point :=
  let np : Point := ⟨cur.x, v⟩
  (⟨'L', [np.x, np.y], cur, np⟩, np)

/-- Relative vertical line value (`v`). -/
def vRelStep (cur : Point) (v : ℚ) : ExtCmd × Point :=
  let np : Point := ⟨cur.x, radd cur.y v⟩
  (⟨'L', [np.x, np.y], cur, np⟩, np)

/-- Absolute cubic chunk (`C`). -/
def cubicAbsStep (cur : Point) (c : ℚ × ℚ × ℚ × ℚ × ℚ × ℚ) : ExtCmd × Point :=
  let (x1, y1, x2, y2, x, y) := c
  let np : Point := ⟨x, y⟩
  (⟨'C', [x1, y1, x2, y2, x, y], cur, np⟩, np)

/-- Relative cubic chunk (`c`): control points and endpoint offset from the
current point. -/
def cubicRelStep (cur : Point) (c : ℚ × ℚ × ℚ × ℚ × ℚ × ℚ) : ExtCmd × Point :=
  let (dx1, dy1, dx2, dy2, dx, dy) := c
  let x1 := radd cur.x dx1
  let y1 := radd cur.y dy1
  let x2 := radd cur.x dx2
  let y2 := radd cur.y dy2
  let np : Point := ⟨radd cur.x dx, radd cur.y dy⟩
  (⟨'C', [x1, y1, x2, y2, np.x, np.y], cur, np⟩, np)

/-- Absolute quadratic chunk (`Q`). -/
def quadAbsStep (cur : Point) (c : ℚ × ℚ × ℚ × ℚ) : ExtCmd × Point :=
  let (x1, y1, x, y) := c
  let np : Point := ⟨x, y⟩
  (⟨'Q', [x1, y1, x, y], cur, np⟩, np)

/-- Relative quadratic chunk (`q`). -/
def quadRelStep (cur : Point) (c : ℚ × ℚ × ℚ × ℚ) : ExtCmd × Point :=
  let (dx1, dy1, dx, dy) := c
  let x1 := radd cur.x dx1
  let y1 := radd cur.y dy1
  let np : Point := ⟨radd cur.x dx, radd cur.y dy⟩
  (⟨'Q', [x1, y1, np.x, np.y], cur, np⟩, np)

/-- Absolute arc chunk (`A`). -/
def arcAbsStep (cur : Point) (c : ℚ × ℚ × ℚ × ℚ × ℚ × ℚ × ℚ) : ExtCmd × Point :=
  let (rx, ry, rot, laf, sw, x, y) := c
  let np : Point := ⟨x, y⟩
  (⟨'A', [rx, ry, rot, laf, sw, x, y], cur, np⟩, np)

/-- Relative arc chunk (`a`): only the endpoint is offset. -/
def arcRelStep (cur : Point) (c : ℚ × ℚ × ℚ × ℚ × ℚ × ℚ × ℚ) : ExtCmd × Point :=
  let (rx, ry, rot, laf, sw, dx, dy) := c
  let np : Point := ⟨radd cur.x dx, radd cur.y dy⟩
  (⟨'A', [rx, ry, rot, laf, sw, np.x, np.y], cur, np⟩, np)

/-- Pass 1 of `reverse_path_commands`: build the extended command list while
threading the current point `cur` and subpath start `sub`. -/
def buildExt : Point → Point → List PathCmd → List ExtCmd
  | _, _, [] => []
  | cur, sub, (cmd, args) :: rest =>
    if cmd = 'M' then
      match args with
      | a0 :: a1 :: extra =>
        let m : Point := ⟨a0, a1⟩
        let (ls, cur') := mapThread lineAbsStep m (chunks2 extra)
        let mSp : Point :=
          match ls.getLast? with
          | none => cur
          | some e => e.sp
        ls ++ [⟨'M', [a0, a1], mSp, m⟩] ++ buildExt cur' m rest
      | _ => ⟨'M', args, cur, cur⟩ :: buildExt cur sub rest
    else if cmd = 'm' then
      match args with
      | a0 :: a1 :: _ =>
        let np : Point := ⟨radd cur.x a0, radd cur.y a1⟩
        ⟨'M', [np.x, np.y], cur, np⟩ :: buildExt np np rest
      | _ => ⟨'m', args, cur, cur⟩ :: buildExt cur sub rest
    else if cmd = 'L' then
      let (ls, cur') := mapThread lineAbsStep cur (chunks2 args)
      ls ++ buildExt cur' sub rest
    else if cmd = 'l' then
      let (ls, cur') := mapThread lineRelStep cur (chunks2 args)
      ls ++ buildExt cur' sub rest
    else if cmd = 'H' then
      let (ls, cur') := mapThread hAbsStep cur args
      ls ++ buildExt cur' sub rest
    else if cmd = 'h' then
      let (ls, cur') := mapThread hRelStep cur args
      ls ++ buildExt cur' sub rest
    else if cmd = 'V' then
      let (ls, cur') := mapThread vAbsStep cur args
      ls ++ buildExt cur' sub rest
    else if cmd = 'v' then
      let (ls, cur') := mapThread vRelStep cur args
      ls ++ buildExt cur' sub rest
    else if cmd = 'C' then
      let (ls, cur') := mapThread cubicAbsStep cur (chunks6 args)
      ls ++ buildExt cur' sub rest
    else if cmd = 'c' then
      let (ls, cur') := mapThread cubicRelStep cur (chunks6 args)
      ls ++ buildExt cur' sub rest
    else if cmd = 'Q' then
      let (ls, cur') := mapThread quadAbsStep cur (chunks4 args)
      ls ++ buildExt cur' sub rest
    else if cmd = 'q' then
      let (ls, cur') := mapThread quadRelStep cur (chunks4 args)
      ls ++ buildExt cur' sub rest
    else if cmd = 'A' then
      let (ls, cur') := mapThread arcAbsStep cur (chunks7 args)
      ls ++ buildExt cur' sub rest
    else if cmd = 'a' then
      let (ls, cur') := mapThread arcRelStep cur (chunks7 args)
      ls ++ buildExt cur' sub rest
    else if cmd = 'Z' ∨ cmd = 'z' then
      ⟨'Z', [], cur, sub⟩ :: buildExt sub sub rest
    else
      ⟨cmd, args, cur, cur⟩ :: buildExt cur sub rest

/-- Pass 2 of `reverse_path_commands`, one extended entry: lines and closes
become lines to the entry's start, cubics swap their control points,
quadratics keep theirs, arcs flip the sweep flag; any other command type is
skipped (the loop has no branch for it, so nothing is appended).  The
argument accesses `args[0]`…`args[4]` are total here via a `0` default —
pass 1 always supplies fully populated argument lists for these entries. -/
def revOne (e : ExtCmd) : List PathCmd :=
  if e.cmd = 'L' then [('L', [e.sp.x, e.sp.y])]
  else if e.cmd = 'C' then
    let x1 := e.args.getD 0 0
    let y1 := e.args.getD 1 0
    let x2 := e.args.getD 2 0
    let y2 := e.args.getD 3 0
    [('C', [x2, y2, x1, y1, e.sp.x, e.sp.y])]
  else if e.cmd = 'Q' then
    let x1 := e.args.getD 0 0
    let y1 := e.args.getD 1 0
    [('Q', [x1, y1, e.sp.x, e.sp.y])]
  else if e.cmd = 'A' then
    let rx := e.args.getD 0 0
    let ry := e.args.getD 1 0
    let rot := e.args.getD 2 0
    let laf := e.args.getD 3 0
    let sw := e.args.getD 4 0
    [('A', [rx, ry, rot, laf, rsub 1 sw, e.sp.x, e.sp.y])]
  else if e.cmd = 'Z' then [('L', [e.sp.x, e.sp.y])]
  else []

/-- `merging.reverse_path_commands`. -/
def reverse_path_commands (commands : List PathCmd) : List PathCmd :=
  match commands with
  | [] => []
  | _ =>
    let extended := buildExt ⟨0, 0⟩ ⟨0, 0⟩ commands
    match extended.getLast? with
    | none => []
    | some lastE =>
      let nonM := extended.filter (fun e => e.cmd ≠ 'M')
      match nonM.getLast? with
      | none => [('M', [lastE.ep.x, lastE.ep.y])]
      | some lastD =>
        ('M', [lastD.ep.x, lastD.ep.y]) :: nonM.reverse.flatMap revOne

/-- Decimal-or-fraction rendering of a rational. Python renders with the
general float format; emitted text is presentation-only (spec section 6:
"numeric text formatting … is a presentation concern owned by the output
collaborator") and no theorem below interprets it. -/
def ratStr (q : ℚ) : String :=
  if q.den = 1 then toString q.num
  else toString q.num ++ "/" ++ toString q.den

/-- `merging.commands_to_d`. -/
def commands_to_d (commands : List PathCmd) : String :=
  String.intercalate " " (commands.map fun pc =>
    match pc.2 with
    | [] => pc.1.toString
    | argsL => pc.1.toString ++ " " ++ String.intercalate " " (argsL.map ratStr))

/-- `merging.reverse_path_d`. -/
def reverse_path_d (d : String) : String :=
  commands_to_d (reverse_path_commands (parse_path_commands d))

/-- `merging.strip_leading_move`. -/
def strip_leading_move (d : String) : String :=
  match parse_path_commands d with
  | [] => d
  | (c, _) :: rest =>
    if c = 'M' ∨ c = 'm' then commands_to_d rest
    else commands_to_d (parse_path_commands d)

/-- `segments_by_id` dictionaries (`{seg.segment_id: seg ...}`): last
occurrence wins; a missing key raises in Python and is modelled by the
default segment (never reached by any theorem below). -/
def segments_by_id (segments : List PathSegment) : ℕ → PathSegment :=
  fun i => ((segments.reverse.find? (fun s => s.segment_id = i)).getD default)

/-- One part of `merge_chain_paths`: the first segment contributes its full
(possibly reversed) text, later segments contribute it with the leading move
stripped, skipped entirely when nothing remains. -/
def mergePart (segsById : ℕ → PathSegment) (first : Bool) (pr : ℕ × Bool) :
    List String :=
  let d0 := (segsById pr.1).d_attribute
  let d := if pr.2 then reverse_path_d d0 else d0
  if first then [d]
  else
    let continuation := strip_leading_move d
    if continuation = "" then [] else [continuation]

/-- `merging.merge_chain_paths`. -/
def merge_chain_paths (ordered : List (ℕ × Bool)) (segsById : ℕ → PathSegment) :
    String :=
  match ordered with
  | [] => ""
  | p0 :: rest =>
    String.intercalate " "
      (mergePart segsById true p0 ++ rest.flatMap (mergePart segsById false))

/-! ## `parsing.extract_endpoints`

The source's replay loop over the parsed command list, carried as a fold with
state (first move target, current point, subpath start point). -/

/-- The loop state of `extract_endpoints`. -/
structure ExtractState where
  start : Option Point
  cur : Point
  sub : Point
deriving DecidableEq

/-- The `M` branch of the replay loop: absolute move, first-move capture,
implicit linetos over the extra coordinate pairs. -/
def extractM (st : ExtractState) (args : List ℚ) : ExtractState :=
  match args with
  | a0 :: a1 :: extra =>
    { start := st.start.orElse (fun _ => some ⟨a0, a1⟩)
      cur := (chunks2 extra).foldl (fun _ p => (⟨p.1, p.2⟩ : Point)) ⟨a0, a1⟩
      sub := ⟨a0, a1⟩ }
  | _ => st

/-- The `m` branch: relative move, first-move capture, implicit relative
linetos. -/
def extractm (st : ExtractState) (args : List ℚ) : ExtractState :=
  match args with
  | a0 :: a1 :: extra =>
    { start := st.start.orElse (fun _ => some ⟨radd st.cur.x a0, radd st.cur.y a1⟩)
      cur := (chunks2 extra).foldl
        (fun c p => (⟨radd c.x p.1, radd c.y p.2⟩ : Point))
        ⟨radd st.cur.x a0, radd st.cur.y a1⟩
      sub := ⟨radd st.cur.x a0, radd st.cur.y a1⟩ }
  | _ => st

/-- The `L` branch. -/
def extractL (st : ExtractState) (args : List ℚ) : ExtractState :=
  { st with cur := (chunks2 args).foldl (fun _ p => (⟨p.1, p.2⟩ : Point)) st.cur }

/-- The `l` branch. -/
def extractl (st : ExtractState) (args : List ℚ) : ExtractState :=
  let c2 := (chunks2 args).foldl (fun c p => (⟨radd c.x p.1, radd c.y p.2⟩ : Point)) st.cur
  { st with cur := c2 }

/-- The `H` branch (`args[-1]` when present). -/
def extractH (st : ExtractState) (args : List ℚ) : ExtractState :=
  match args.getLast? with
  | none => st
  | some v => { st with cur := ⟨v, st.cur.y⟩ }

/-- The `h` branch. -/
def extracth (st : ExtractState) (args : List ℚ) : ExtractState :=
  { st with cur := ⟨args.foldl radd st.cur.x, st.cur.y⟩ }

/-- The `V` branch. -/
def extractV (st : ExtractState) (args : List ℚ) : ExtractState :=
  match args.getLast? with
  | none => st
  | some v => { st with cur := ⟨st.cur.x, v⟩ }

/-- The `v` branch. -/
def extractv (st : ExtractState) (args : List ℚ) : ExtractState :=
  { st with cur := ⟨st.cur.x, args.foldl radd st.cur.y⟩ }

/-- The `C` branch. -/
def extractC (st : ExtractState) (args : List ℚ) : ExtractState :=
  let c2 := (chunks6 args).foldl (fun _ c => (⟨c.2.2.2.2.1, c.2.2.2.2.2⟩ : Point)) st.cur
  { st with cur := c2 }

/-- The `c` branch. -/
def extractc (st : ExtractState) (args : List ℚ) : ExtractState :=
  let c2 := (chunks6 args).foldl (fun p c => (⟨radd p.x c.2.2.2.2.1, radd p.y c.2.2.2.2.2⟩ : Point)) st.cur
  { st with cur := c2 }

/-- The `S` branch. -/
def extractS (st : ExtractState) (args : List ℚ) : ExtractState :=
  let c2 := (chunks4 args).foldl (fun _ c => (⟨c.2.2.1, c.2.2.2⟩ : Point)) st.cur
  { st with cur := c2 }

/-- The `s` branch. -/
def extractsm (st : ExtractState) (args : List ℚ) : ExtractState :=
  let c2 := (chunks4 args).foldl (fun p c => (⟨radd p.x c.2.2.1, radd p.y c.2.2.2⟩ : Point)) st.cur
  { st with cur := c2 }

/-- The `Q` branch. -/
def extractQ (st : ExtractState) (args : List ℚ) : ExtractState :=
  let c2 := (chunks4 args).foldl (fun _ c => (⟨c.2.2.1, c.2.2.2⟩ : Point)) st.cur
  { st with cur := c2 }

/-- The `q` branch. -/
def extractq (st : ExtractState) (args : List ℚ) : ExtractState :=
  let c2 := (chunks4 args).foldl (fun p c => (⟨radd p.x c.2.2.1, radd p.y c.2.2.2⟩ : Point)) st.cur
  { st with cur := c2 }

/-- The `T` branch. -/
def extractT (st : ExtractState) (args : List ℚ) : ExtractState :=
  { st with cur := (chunks2 args).foldl (fun _ p => (⟨p.1, p.2⟩ : Point)) st.cur }

/-- The `t` branch. -/
def extractt (st : ExtractState) (args : List ℚ) : ExtractState :=
  let c2 := (chunks2 args).foldl (fun c p => (⟨radd c.x p.1, radd c.y p.2⟩ : Point)) st.cur
  { st with cur := c2 }

/-- The `A` branch. -/
def extractA (st : ExtractState) (args : List ℚ) : ExtractState :=
  let c2 := (chunks7 args).foldl (fun _ c => (⟨c.2.2.2.2.2.1, c.2.2.2.2.2.2⟩ : Point)) st.cur
  { st with cur := c2 }

/-- The `a` branch. -/
def extracta (st : ExtractState) (args : List ℚ) : ExtractState :=
  let c2 := (chunks7 args).foldl (fun p c => (⟨radd p.x c.2.2.2.2.2.1, radd p.y c.2.2.2.2.2.2⟩ : Point)) st.cur
  { st with cur := c2 }

/-- The `Z`/`z` branch: return to the subpath start. -/
def extractZ (st : ExtractState) : ExtractState :=
  { st with cur := st.sub }

/-- One iteration of the `extract_endpoints` replay loop, dispatching on the
command letter exactly as the source's if/elif chain does. -/
def extractStep : ExtractState → PathCmd → ExtractState
  | st, (cmd, args) =>
    if cmd = 'M' then extractM st args
    else if cmd = 'm' then extractm st args
    else if cmd = 'L' then extractL st args
    else if cmd = 'l' then extractl st args
    else if cmd = 'H' then extractH st args
    else if cmd = 'h' then extracth st args
    else if cmd = 'V' then extractV st args
    else if cmd = 'v' then extractv st args
    else if cmd = 'C' then extractC st args
    else if cmd = 'c' then extractc st args
    else if cmd = 'S' then extractS st args
    else if cmd = 's' then extractsm st args
    else if cmd = 'Q' then extractQ st args
    else if cmd = 'q' then extractq st args
    else if cmd = 'T' then extractT st args
    else if cmd = 't' then extractt st args
    else if cmd = 'A' then extractA st args
    else if cmd = 'a' then extracta st args
    else if cmd = 'Z' ∨ cmd = 'z' then extractZ st
    else st

/-- `parsing.extract_endpoints`, over the parsed command list. -/
def extract_endpoints_cmds (commands : List PathCmd) : Option (Point × Point) :=
  match commands with
  | [] => none
  | _ =>
    let st := commands.foldl extractStep ⟨none, ⟨0, 0⟩, ⟨0, 0⟩⟩
    match st.start with
    | none => none
    | some s => some (s, st.cur)

/-- `parsing.extract_endpoints` on the raw attribute text. -/
def extract_endpoints (d : String) : Option (Point × Point) :=
  extract_endpoints_cmds (parse_path_d d)

/-! ## Spatial index (`spatial_index.SpatialIndex`)

The grid maps each cell to the entries appended to it, in insertion order.
Since an entry is stored exactly in the cell computed from its own point,
the per-cell list equals the filter of the global insertion-ordered entry
list by that cell — the model used here. -/

/-- An indexed endpoint: `(point, segment_id, is_start)`. -/
abbrev SpatialEntry := Point × ℕ × Bool

/-- `self.cell_size = tolerance * 2.0`. -/
def cell_size (tolerance : ℚ) : ℚ := rmul tolerance 2

/-- `SpatialIndex._cell_coords`: `floor(x / cell_size), floor(y / cell_size)`.
Division by a zero cell size raises in Python; the checked variant below
models that, and every theorem quantifying over tolerances assumes
`0 < tolerance`. -/
def cell_coords (cs : ℚ) (p : Point) : ℤ × ℤ :=
  (rfloorDiv p.x cs, rfloorDiv p.y cs)

/-- `add_segments`/`add_segment`: the start point is always indexed; the end
point is indexed unless the segment is closed with start near end. -/
def spatial_entries (tolerance : ℚ) (segments : List PathSegment) :
    List SpatialEntry :=
  segments.flatMap fun seg =>
    (seg.start, seg.segment_id, true) ::
      (if ¬seg.is_closed ∨ ¬(is_near seg.start seg.seg_end tolerance) then
        [(seg.seg_end, seg.segment_id, false)]
      else [])

/-- `_neighboring_cells`: the cell and its 8 neighbors, `dx` outer loop. -/
def neighboring_cells (cell : ℤ × ℤ) : List (ℤ × ℤ) :=
  [(cell.1 - 1, cell.2 - 1), (cell.1 - 1, cell.2), (cell.1 - 1, cell.2 + 1),
   (cell.1, cell.2 - 1), (cell.1, cell.2), (cell.1, cell.2 + 1),
   (cell.1 + 1, cell.2 - 1), (cell.1 + 1, cell.2), (cell.1 + 1, cell.2 + 1)]

/-- The per-cell bucket `self._grid.get(cell, [])`. -/
def grid_cell (tolerance : ℚ) (entries : List SpatialEntry) (cell : ℤ × ℤ) :
    List SpatialEntry :=
  entries.filter (fun e => cell_coords (cell_size tolerance) e.1 = cell)

/-- The sort key `(distance, segment_id)` of `find_nearby_endpoints`, on
result triples carrying the squared distance (sorting by squared distance
coincides with sorting by distance). -/
def nearLE (a b : ℕ × Bool × ℚ) : Prop :=
  rlt a.2.2 b.2.2 = true ∨ (a.2.2 = b.2.2 ∧ a.1 ≤ b.1)

instance : DecidableRel nearLE := fun a b => by
  unfold nearLE
  infer_instance

instance : IsTotal (ℕ × Bool × ℚ) nearLE := by
  constructor
  intro a b
  unfold nearLE
  rcases lt_trichotomy a.2.2 b.2.2 with h | h | h
  · left
    left
    rw [rlt_iff]
    exact h
  · rcases le_total a.1 b.1 with h2 | h2
    · left
      right
      exact ⟨h, h2⟩
    · right
      right
      exact ⟨h.symm, h2⟩
  · right
    left
    rw [rlt_iff]
    exact h

instance : IsTrans (ℕ × Bool × ℚ) nearLE := by
  constructor
  intro a b c hab hbc
  unfold nearLE at *
  rw [rlt_iff] at *
  rcases hab with h1 | ⟨h1, h1'⟩ <;> rcases hbc with h2 | ⟨h2, h2'⟩
  · exact Or.inl (lt_trans h1 h2)
  · exact Or.inl (h2 ▸ h1)
  · exact Or.inl (h1 ▸ h2)
  · exact Or.inr ⟨h1.trans h2, le_trans h1' h2'⟩

/-- The per-entry test of `find_nearby_endpoints`: exclusion and the true
Euclidean distance filter. -/
def nearby_match (tolerance : ℚ) (point : Point) (exclude_segment_id : ℕ)
    (e : SpatialEntry) : Option (ℕ × Bool × ℚ) :=
  if e.2.1 = exclude_segment_id then none
  else if rle (dist2 point e.1) (rmul tolerance tolerance) then
    some (e.2.1, e.2.2, dist2 point e.1)
  else none

/-- `find_nearby_endpoints`: scan the 3x3 cell block, keep entries of other
segments within tolerance, and sort by `(distance, segment_id)` (Python's
stable sort; `List.insertionSort` is stable as well). -/
def find_nearby_endpoints (tolerance : ℚ) (entries : List SpatialEntry)
    (point : Point) (exclude_segment_id : ℕ) : List (ℕ × Bool × ℚ) :=
  let results :=
    (neighboring_cells (cell_coords (cell_size tolerance) point)).flatMap fun c =>
      (grid_cell tolerance entries c).filterMap
        (nearby_match tolerance point exclude_segment_id)
  results.insertionSort nearLE

/-- `find_connections`: nearby endpoints of a segment's start and end,
dropping the distance component. -/
def find_connections (tolerance : ℚ) (entries : List SpatialEntry)
    (seg : PathSegment) : List (ℕ × Bool) × List (ℕ × Bool) :=
  ((find_nearby_endpoints tolerance entries seg.start seg.segment_id).map
      (fun r => (r.1, r.2.1)),
   (find_nearby_endpoints tolerance entries seg.seg_end seg.segment_id).map
      (fun r => (r.1, r.2.1)))

/-! ## Clustering (`clustering`) -/

/-- The entries `build_adjacency_graph` appends for one segment:
start connections tagged `this_at_start = true`, then end connections. -/
def adjacency_entries (tolerance : ℚ) (entries : List SpatialEntry)
    (seg : PathSegment) : List (ℕ × Bool × Bool) :=
  let conns := find_connections tolerance entries seg
  conns.1.map (fun pr => (pr.1, true, pr.2)) ++
    conns.2.map (fun pr => (pr.1, false, pr.2))

/-- `build_adjacency_graph` as a total lookup: the defaultdict accumulates,
per key, the entries of every segment bearing that id, in iteration order
(`adjacency.get(seg_id, [])` yields `[]` for absent keys). -/
def build_adjacency_graph (segments : List PathSegment) (tolerance : ℚ) :
    ℕ → List (ℕ × Bool × Bool) :=
  fun i => (segments.filter (fun s => s.segment_id = i)).flatMap
    (adjacency_entries tolerance (spatial_entries tolerance segments))

/-- `clustering.UnionFind`. -/
structure UnionFind where
  parent : List ℕ
  rank : List ℕ
deriving DecidableEq

/-- `UnionFind.__init__(n)`. -/
def UnionFind.init (n : ℕ) : UnionFind :=
  ⟨List.range n, List.replicate n 0⟩

/-- Root lookup by walking parent pointers, fuelled by the number of
elements: a union-by-rank forest has depth below `n`, so the fuel is never
exhausted.  The source's path compression only rewrites parent pointers to
the (identical) root and cannot change any result. -/
def UnionFind.findAux (parent : List ℕ) : ℕ → ℕ → ℕ
  | 0, x => x
  | fuel + 1, x =>
    let p := parent.getD x x
    if p = x then x else UnionFind.findAux parent fuel p

/-- `UnionFind.find`. -/
def UnionFind.find (uf : UnionFind) (x : ℕ) : ℕ :=
  UnionFind.findAux uf.parent uf.parent.length x

/-- `UnionFind.union` (by rank; the boolean result of the source is unused by
the clusterer and omitted). -/
def UnionFind.union (uf : UnionFind) (x y : ℕ) : UnionFind :=
  let root_x := uf.find x
  let root_y := uf.find y
  if root_x = root_y then uf
  else if uf.rank.getD root_x 0 < uf.rank.getD root_y 0 then
    { uf with parent := uf.parent.set root_x root_y }
  else if uf.rank.getD root_y 0 < uf.rank.getD root_x 0 then
    { uf with parent := uf.parent.set root_y root_x }
  else
    { parent := uf.parent.set root_y root_x,
      rank := uf.rank.set root_x (uf.rank.getD root_x 0 + 1) }

/-- First-occurrence deduplication — insertion order of `defaultdict` keys. -/
def dedupKeepFirst (l : List ℕ) : List ℕ :=
  l.foldl (fun acc r => if r ∈ acc then acc else acc ++ [r]) []

/-- `UnionFind.get_components`: root → members, roots in first-occurrence
order of `range(n)`, members ascending. -/
def UnionFind.get_components (uf : UnionFind) : List (ℕ × List ℕ) :=
  let n := uf.parent.length
  let roots := (List.range n).map uf.find
  (dedupKeepFirst roots).map
    (fun r => (r, (List.range n).filter (fun i => uf.find i = r)))

/-- `id_to_idx` (`{seg.segment_id: i ...}`, last occurrence wins). -/
def id_to_idx (segments : List PathSegment) (i : ℕ) : ℕ :=
  match segments.reverse.findIdx? (fun s => s.segment_id = i) with
  | some j => segments.length - 1 - j
  | none => 0

/-- `idx_to_id` (`{i: seg.segment_id ...}`). -/
def idx_to_id (segments : List PathSegment) (j : ℕ) : ℕ :=
  (segments.getD j default).segment_id

/-- The union loop of `find_connected_components`: iterate the adjacency
dict's keys (ids with at least one connection, in first-append order) and
union each with its neighbors. -/
def cluster_unions (segments : List PathSegment)
    (adj : ℕ → List (ℕ × Bool × Bool)) : UnionFind :=
  let keyIds := (dedupKeepFirst (segments.map (fun s => s.segment_id))).filter
    (fun i => adj i ≠ [])
  keyIds.foldl
    (fun uf i =>
      (adj i).foldl
        (fun uf2 e => uf2.union (id_to_idx segments i) (id_to_idx segments e.1))
        uf)
    (UnionFind.init segments.length)

/-- `clustering.find_connected_components`. -/
def find_connected_components (segments : List PathSegment)
    (adj : ℕ → List (ℕ × Bool × Bool)) : List (ℕ × List ℕ) :=
  let uf := cluster_unions segments adj
  uf.get_components.map
    (fun pr => (idx_to_id segments pr.1, pr.2.map (idx_to_id segments)))

/-- In-component degree of a segment: number of adjacency entries whose
other end lies in the component. -/
def degree (adj : ℕ → List (ℕ × Bool × Bool)) (compIds : List ℕ) (i : ℕ) : ℕ :=
  ((adj i).filter (fun e => e.1 ∈ compIds)).length

/-- The next-segment search of the chain walk: first adjacency entry of the
current segment whose other end is an unvisited component member and whose
own end is the current exit point. -/
def findNextIn (compIds visited : List ℕ) (exitEnd : Bool) :
    List (ℕ × Bool × Bool) → Option (ℕ × Bool)
  | [] => none
  | (o, thisS, otherS) :: rest =>
    if o ∈ compIds ∧ ¬ o ∈ visited ∧ thisS ≠ exitEnd then some (o, otherS)
    else findNextIn compIds visited exitEnd rest

/-- `findNextIn` applied to the current segment's adjacency list. -/
def findNext (adj : ℕ → List (ℕ × Bool × Bool)) (compIds visited : List ℕ)
    (cur : ℕ) (exitEnd : Bool) : Option (ℕ × Bool) :=
  findNextIn compIds visited exitEnd (adj cur)

/-- The `while` walk of `order_chain_segments`: emit the current segment with
its reversal flag (`needs_reversal = not current_exit_from_end`), then follow
the first eligible neighbor, entering it at `other_at_start` and exiting from
the opposite end.  Each iteration consumes a fresh unvisited component
member, so fuel `component_ids.length` is never exhausted. -/
def walkChain (adj : ℕ → List (ℕ × Bool × Bool)) (compIds : List ℕ) :
    ℕ → List ℕ → ℕ → Bool → List (ℕ × Bool)
  | 0, _, _, _ => []
  | fuel + 1, visited, cur, exitEnd =>
    (cur, !exitEnd) ::
      (match findNext adj compIds (cur :: visited) cur exitEnd with
       | none => []
       | some (n, entersAtStart) =>
          walkChain adj compIds fuel (cur :: visited) n entersAtStart)

/-- `clustering.order_chain_segments` (its `segments_by_id` and `tolerance`
parameters are unused by the source body and kept for signature fidelity). -/
def order_chain_segments (component_ids : List ℕ)
    (adj : ℕ → List (ℕ × Bool × Bool)) (_segsById : ℕ → PathSegment)
    (_tolerance : ℚ) : List (ℕ × Bool) × Bool :=
  if component_ids.length = 1 then ([(component_ids.headD 0, false)], false)
  else
    let endpointIds := component_ids.filter (fun i => degree adj component_ids i = 1)
    let is_loop := endpointIds = []
    let start_id := if is_loop then component_ids.headD 0 else endpointIds.headD 0
    let conns_at_start := ((adj start_id).filter
        (fun e => e.2.1 = true ∧ e.1 ∈ component_ids)).length
    let start_at_end := if is_loop then false else 0 < conns_at_start
    (walkChain adj component_ids component_ids.length [] start_id (!start_at_end),
      is_loop)

/-- The chain/orphan loop of `cluster_segments` over the sorted components,
threading the chain-id counter (the source's local bindings `seg`,
`first_seg`, `ordered_segments`, `merged_d` are inlined). -/
def process_components (segsById : ℕ → PathSegment)
    (adj : ℕ → List (ℕ × Bool × Bool)) (tolerance : ℚ) :
    List (List ℕ) → ℕ → List PathChain × List PathSegment
  | [], _ => ([], [])
  | compIds :: rest, cid =>
    if compIds.length = 1 then
      if (segsById (compIds.headD 0)).is_closed
          || is_near (segsById (compIds.headD 0)).start
              (segsById (compIds.headD 0)).seg_end tolerance then
        ((⟨cid, [(segsById (compIds.headD 0)).segment_id],
            (segsById (compIds.headD 0)).d_attribute,
            (segsById (compIds.headD 0)).visual_attrs, true⟩ : PathChain)
            :: (process_components segsById adj tolerance rest (cid + 1)).1,
          (process_components segsById adj tolerance rest (cid + 1)).2)
      else
        ((process_components segsById adj tolerance rest cid).1,
          segsById (compIds.headD 0)
            :: (process_components segsById adj tolerance rest cid).2)
    else
      ((⟨cid, (order_chain_segments compIds adj segsById tolerance).1.map Prod.fst,
          merge_chain_paths (order_chain_segments compIds adj segsById tolerance).1
            segsById,
          (segsById (compIds.headD 0)).visual_attrs,
          (order_chain_segments compIds adj segsById tolerance).2⟩ : PathChain)
          :: (process_components segsById adj tolerance rest (cid + 1)).1,
        (process_components segsById adj tolerance rest (cid + 1)).2)

/-- Order on `components.items()` used by `sorted`: by root key (keys are
distinct). -/
def pairKeyLE (a b : ℕ × List ℕ) : Prop := a.1 ≤ b.1

instance : DecidableRel pairKeyLE := fun a b => by
  unfold pairKeyLE
  infer_instance

/-- `clustering.cluster_segments`. -/
def cluster_segments (segments : List PathSegment) (tolerance : ℚ) :
    ClusterResult :=
  if segments = [] then ClusterResult.create [] [] 0
  else
    let adj := build_adjacency_graph segments tolerance
    let components := find_connected_components segments adj
    let sortedComponents := (components.insertionSort pairKeyLE).map Prod.snd
    let pr := process_components (segments_by_id segments) adj tolerance
      sortedComponents 0
    ClusterResult.create pr.1 pr.2 segments.length

/-! ## Error-path model for the zero-tolerance division

`_cell_coords` divides by `cell_size`; Python raises `ZeroDivisionError`
when it is zero.  The checked variants return `none` exactly on that raise
and otherwise delegate to the total model above (which the successful run
equals, every later operation being total). -/

/-- `_cell_coords` with the Python zero-division failure made explicit. -/
def cell_coords_checked (cs : ℚ) (p : Point) : Option (ℤ × ℤ) :=
  if cs = 0 then none else some (cell_coords cs p)

/-- `add_segment` tracking only whether a division failure occurs. -/
def add_segment_checked (tolerance : ℚ) (seg : PathSegment) : Option Unit := do
  let _ ← cell_coords_checked (cell_size tolerance) seg.start
  if ¬seg.is_closed ∨ ¬(is_near seg.start seg.seg_end tolerance) then
    let _ ← cell_coords_checked (cell_size tolerance) seg.seg_end
    pure ()
  else
    pure ()

/-- `add_segments` over a segment list. -/
def add_segments_checked (tolerance : ℚ) (segments : List PathSegment) :
    Option Unit :=
  segments.foldl (fun acc seg => acc.bind (fun _ => add_segment_checked tolerance seg))
    (some ())

/-- `cluster_segments` with the division failure made explicit: an empty
input returns before the index is built; otherwise indexing all segments
must succeed, after which the remaining pipeline is total. -/
def cluster_segments_checked (segments : List PathSegment) (tolerance : ℚ) :
    Option ClusterResult :=
  if segments = [] then some (ClusterResult.create [] [] 0)
  else
    (add_segments_checked tolerance segments).map
      (fun _ => cluster_segments segments tolerance)

/-! ## Lemmas: the spatial query returns exactly the in-tolerance entries -/

theorem filter_or_perm {α : Type} (p q : α → Bool) (l : List α)
    (hpq : ∀ a, ¬(p a = true ∧ q a = true)) :
    (l.filter (fun a => p a || q a)).Perm (l.filter p ++ l.filter q) := by
  induction l with
  | nil => simp
  | cons a l ih =>
    by_cases hp : p a = true
    · have hq : q a = false := by
        cases h : q a
        · rfl
        · exact absurd ⟨hp, h⟩ (hpq a)
      rw [List.filter_cons_of_pos (by simp [hp]), List.filter_cons_of_pos hp,
        List.filter_cons_of_neg (by simp [hq])]
      exact ih.cons a
    · have hp' : p a = false := by
        cases h : p a
        · rfl
        · exact absurd h hp
      by_cases hq : q a = true
      · rw [List.filter_cons_of_pos (by simp [hq]), List.filter_cons_of_neg (by simp [hp'])]
        rw [List.filter_cons_of_pos hq]
        exact (ih.cons a).trans List.perm_middle.symm
      · have hq' : q a = false := by
          cases h : q a
          · rfl
          · exact absurd h hq
        rw [List.filter_cons_of_neg (by simp [hp', hq']),
          List.filter_cons_of_neg (by simp [hp']), List.filter_cons_of_neg (by simp [hq'])]
        exact ih

theorem flatMap_filter_key_perm {α κ : Type} [DecidableEq κ] (key : α → κ) :
    ∀ (ks : List κ), ks.Nodup → ∀ (l : List α),
      (ks.flatMap (fun k => l.filter (fun a => key a = k))).Perm
        (l.filter (fun a => key a ∈ ks))
  | [], _, l => by simp
  | k :: ks, hnd, l => by
    have hnd' := List.nodup_cons.mp hnd
    have ih := flatMap_filter_key_perm key ks hnd'.2 l
    rw [List.flatMap_cons]
    refine ((ih.append_left _).trans ?_)
    have hcongr : l.filter (fun a => decide (key a ∈ k :: ks))
        = l.filter (fun a => (decide (key a = k) || decide (key a ∈ ks))) := by
      refine List.filter_congr ?_
      intro a _
      simp [List.mem_cons]
    rw [hcongr]
    refine (filter_or_perm _ _ l ?_).symm
    intro a ⟨h1, h2⟩
    rw [decide_eq_true_iff] at h1 h2
    exact hnd'.1 (h1 ▸ h2)

theorem filterMap_filter_of_imp {α β : Type} (p : α → Bool) (f : α → Option β)
    (l : List α) (h : ∀ a, f a ≠ none → p a = true) :
    (l.filter p).filterMap f = l.filterMap f := by
  induction l with
  | nil => rfl
  | cons a l ih =>
    by_cases hp : p a = true
    · rw [List.filter_cons_of_pos hp, List.filterMap_cons, List.filterMap_cons]
      cases f a
      · exact ih
      · rw [ih]
    · have hf : f a = none := by
        by_contra hne
        exact hp (h a hne)
      rw [List.filter_cons_of_neg (by simpa using hp), List.filterMap_cons, hf, ih]

theorem filterMap_flatMap_eq {α β γ : Type} (l : List α) (g : α → List β)
    (f : β → Option γ) :
    (l.flatMap fun a => (g a).filterMap f) = (l.flatMap g).filterMap f := by
  induction l with
  | nil => rfl
  | cons a l ih => simp only [List.flatMap_cons, List.filterMap_append, ih]

theorem abs_le_of_sq_le {a t : ℚ} (ht : 0 ≤ t) (h : a * a ≤ t * t) : |a| ≤ t := by
  by_contra hc
  push_neg at hc
  have h1 : t * t < |a| * |a| := by nlinarith [abs_nonneg a]
  rw [abs_mul_abs_self] at h1
  linarith

theorem floor_near {a b : ℚ} (h : |a - b| ≤ 1 / 2) :
    ⌊a⌋ = ⌊b⌋ - 1 ∨ ⌊a⌋ = ⌊b⌋ ∨ ⌊a⌋ = ⌊b⌋ + 1 := by
  rw [abs_le] at h
  have h1 : ⌊a⌋ ≤ ⌊b⌋ + 1 := by
    have hab : a ≤ b + 1 := by linarith
    calc ⌊a⌋ ≤ ⌊b + 1⌋ := Int.floor_mono hab
      _ = ⌊b⌋ + 1 := Int.floor_add_one b
  have h2 : ⌊b⌋ - 1 ≤ ⌊a⌋ := by
    have hba : b - (1 : ℤ) ≤ a := by
      push_cast
      linarith
    calc ⌊b⌋ - 1 = ⌊b - (1 : ℤ)⌋ := (Int.floor_sub_int b 1).symm
      _ ≤ ⌊a⌋ := Int.floor_mono hba
  omega

theorem neighboring_cells_nodup (c : ℤ × ℤ) : (neighboring_cells c).Nodup := by
  simp [neighboring_cells, Prod.ext_iff]
  omega

theorem cell_size_eq (tol : ℚ) : cell_size tol = tol * 2 := by
  rw [cell_size, rmul_eq]

/-- No in-tolerance endpoint escapes the 3x3 cell block: the cell side is
twice the tolerance, so in each axis the query point and a match are at most
half a cell apart, and their cell indices differ by at most one. -/
theorem cell_coverage {tol : ℚ} (htol : 0 < tol) {p q : Point}
    (h : dist2 p q ≤ tol * tol) :
    cell_coords (cell_size tol) q ∈ neighboring_cells (cell_coords (cell_size tol) p) := by
  have hcs : cell_size tol ≠ 0 := by
    rw [cell_size_eq]
    positivity
  have hd := dist2_eq p q
  have hx2 : (p.x - q.x) * (p.x - q.x) ≤ tol * tol := by nlinarith [mul_self_nonneg (p.y - q.y)]
  have hy2 : (p.y - q.y) * (p.y - q.y) ≤ tol * tol := by nlinarith [mul_self_nonneg (p.x - q.x)]
  have hx : |p.x - q.x| ≤ tol := abs_le_of_sq_le (le_of_lt htol) hx2
  have hy : |p.y - q.y| ≤ tol := abs_le_of_sq_le (le_of_lt htol) hy2
  have hcs2 : (0 : ℚ) < tol * 2 := by positivity
  have hxq : |q.x / (tol * 2) - p.x / (tol * 2)| ≤ 1 / 2 := by
    rw [div_sub_div_same, abs_div, abs_of_pos hcs2]
    rw [div_le_div_iff hcs2 (by norm_num)]
    rw [abs_sub_comm] at hx
    nlinarith
  have hyq : |q.y / (tol * 2) - p.y / (tol * 2)| ≤ 1 / 2 := by
    rw [div_sub_div_same, abs_div, abs_of_pos hcs2]
    rw [div_le_div_iff hcs2 (by norm_num)]
    rw [abs_sub_comm] at hy
    nlinarith
  have hfx := floor_near hxq
  have hfy := floor_near hyq
  unfold cell_coords
  rw [rfloorDiv_eq _ _ hcs, rfloorDiv_eq _ _ hcs, rfloorDiv_eq _ _ hcs,
    rfloorDiv_eq _ _ hcs, cell_size_eq] at *
  rcases hfx with hx1 | hx1 | hx1 <;> rcases hfy with hy1 | hy1 | hy1 <;>
    simp [neighboring_cells, Prod.ext_iff, hx1, hy1]

theorem nearby_match_eq_some {tol : ℚ} {p : Point} {excl : ℕ} {e : SpatialEntry}
    {r : ℕ × Bool × ℚ} :
    nearby_match tol p excl e = some r ↔
      e.2.1 ≠ excl ∧ dist2 p e.1 ≤ tol * tol ∧ r = (e.2.1, e.2.2, dist2 p e.1) := by
  unfold nearby_match
  split_ifs with h1 h2
  · simp [h1]
  · have h2' : dist2 p e.1 ≤ tol * tol := by
      rw [rle_iff, rmul_eq] at h2
      exact h2
    constructor
    · intro hr
      exact ⟨h1, h2', (Option.some_inj.mp hr).symm⟩
    · intro ⟨_, _, hr⟩
      rw [hr]
  · have h2' : ¬ dist2 p e.1 ≤ tol * tol := by
      rw [rle_iff, rmul_eq] at h2
      exact h2
    constructor
    · intro hr
      exact absurd hr (by simp)
    · intro ⟨_, hd, _⟩
      exact absurd hd h2' 

/-- The query result is a permutation of the in-tolerance non-excluded
entries of the whole index (soundness and 3x3 completeness together). -/
theorem find_nearby_perm {tol : ℚ} (htol : 0 < tol) (entries : List SpatialEntry)
    (p : Point) (excl : ℕ) :
    (find_nearby_endpoints tol entries p excl).Perm
      (entries.filterMap (nearby_match tol p excl)) := by
  unfold find_nearby_endpoints
  refine (List.perm_insertionSort nearLE _).trans ?_
  unfold grid_cell
  rw [filterMap_flatMap_eq]
  refine ((flatMap_filter_key_perm (fun e => cell_coords (cell_size tol) e.1)
      _ (neighboring_cells_nodup _) entries).filterMap _).trans ?_
  rw [filterMap_filter_of_imp]
  intro e hne
  have hr : ∃ r, nearby_match tol p excl e = some r := by
    cases hm : nearby_match tol p excl e
    · exact absurd hm hne
    · exact ⟨_, rfl⟩
  obtain ⟨r, hr⟩ := hr
  have hd := (nearby_match_eq_some.mp hr).2.1
  have hcov := cell_coverage htol hd
  simpa using hcov

theorem find_nearby_sorted (tol : ℚ) (entries : List SpatialEntry) (p : Point)
    (excl : ℕ) :
    List.Sorted nearLE (find_nearby_endpoints tol entries p excl) :=
  List.sorted_insertionSort nearLE _

theorem mem_find_nearby {tol : ℚ} (htol : 0 < tol) {entries : List SpatialEntry}
    {p : Point} {excl : ℕ} {r : ℕ × Bool × ℚ} :
    r ∈ find_nearby_endpoints tol entries p excl ↔
      ∃ e ∈ entries, nearby_match tol p excl e = some r := by
  rw [(find_nearby_perm htol entries p excl).mem_iff, List.mem_filterMap]

/-! ## Lemmas: adjacency entries and the chain walk -/

/-- The endpoint of a segment selected by an `is_start` flag. -/
def endpoint_of (s : PathSegment) (at_start : Bool) : Point :=
  if at_start then s.start else s.seg_end

theorem spatial_entries_sound {tol : ℚ} {segments : List PathSegment}
    {e : SpatialEntry} (he : e ∈ spatial_entries tol segments) :
    ∃ s ∈ segments, s.segment_id = e.2.1 ∧ e.1 = endpoint_of s e.2.2 := by
  unfold spatial_entries at he
  rw [List.mem_flatMap] at he
  obtain ⟨s, hs, hmem⟩ := he
  rcases List.mem_cons.mp hmem with rfl | hmem2
  · exact ⟨s, hs, rfl, rfl⟩
  · split_ifs at hmem2 with hcond
    · rcases List.mem_singleton.mp hmem2 with rfl
      exact ⟨s, hs, rfl, rfl⟩
    · cases hmem2

theorem start_mem_spatial_entries {tol : ℚ} {segments : List PathSegment}
    {s : PathSegment} (hs : s ∈ segments) :
    (s.start, s.segment_id, true) ∈ spatial_entries tol segments := by
  unfold spatial_entries
  rw [List.mem_flatMap]
  exact ⟨s, hs, List.mem_cons_self _ _⟩

theorem end_mem_spatial_entries {tol : ℚ} {segments : List PathSegment}
    {s : PathSegment} (hs : s ∈ segments)
    (hcond : ¬(s.is_closed = true) ∨ ¬(is_near s.start s.seg_end tol = true)) :
    (s.seg_end, s.segment_id, false) ∈ spatial_entries tol segments := by
  unfold spatial_entries
  rw [List.mem_flatMap]
  refine ⟨s, hs, ?_⟩
  rw [if_pos hcond]
  exact List.mem_cons_of_mem _ (List.mem_singleton.mpr rfl)

theorem filter_id_eq_single {segments : List PathSegment}
    (hnd : (segments.map (fun s => s.segment_id)).Nodup) {s : PathSegment}
    (hs : s ∈ segments) :
    segments.filter (fun t => t.segment_id = s.segment_id) = [s] := by
  induction segments with
  | nil => cases hs
  | cons a l ih =>
    rw [List.map_cons, List.nodup_cons] at hnd
    rcases List.mem_cons.mp hs with rfl | hs2
    · rw [List.filter_cons_of_pos (by simp)]
      have hnil : l.filter (fun t => t.segment_id = s.segment_id) = [] := by
        rw [List.filter_eq_nil_iff]
        intro t ht
        simp only [decide_eq_true_eq]
        intro hid
        exact hnd.1 (hid ▸ List.mem_map_of_mem (fun u => u.segment_id) ht)
      rw [hnil]
    · have hne : ¬(a.segment_id = s.segment_id) := by
        intro he
        exact hnd.1 (he ▸ List.mem_map_of_mem (fun u => u.segment_id) hs2)
      rw [List.filter_cons_of_neg (by simpa using hne), ih hnd.2 hs2]

theorem endpoint_of_false (s : PathSegment) : endpoint_of s false = s.seg_end := rfl

theorem endpoint_of_true (s : PathSegment) : endpoint_of s true = s.start := rfl

theorem mem_adjacency_entries {tol : ℚ} {entries : List SpatialEntry}
    {s : PathSegment} {b : ℕ} {thisS otherS : Bool} :
    (b, thisS, otherS) ∈ adjacency_entries tol entries s ↔
      ∃ d, (b, otherS, d) ∈
        find_nearby_endpoints tol entries (endpoint_of s thisS) s.segment_id := by
  unfold adjacency_entries find_connections
  constructor
  · intro h
    rcases List.mem_append.mp h with h1 | h1
    · rcases List.mem_map.mp h1 with ⟨pr, hpr, he⟩
      rcases List.mem_map.mp hpr with ⟨r, hr, rfl⟩
      have hts : thisS = true := by
        have := congrArg (fun t : ℕ × Bool × Bool => t.2.1) he
        simpa using this.symm
      have hb : r.1 = b := congrArg Prod.fst he
      have ho : r.2.1 = otherS := by
        have := congrArg (fun t : ℕ × Bool × Bool => t.2.2) he
        simpa using this
      subst hts
      refine ⟨r.2.2, ?_⟩
      rw [endpoint_of_true, ← hb, ← ho]
      exact hr
    · rcases List.mem_map.mp h1 with ⟨pr, hpr, he⟩
      rcases List.mem_map.mp hpr with ⟨r, hr, rfl⟩
      have hts : thisS = false := by
        have := congrArg (fun t : ℕ × Bool × Bool => t.2.1) he
        simpa using this.symm
      have hb : r.1 = b := congrArg Prod.fst he
      have ho : r.2.1 = otherS := by
        have := congrArg (fun t : ℕ × Bool × Bool => t.2.2) he
        simpa using this
      subst hts
      refine ⟨r.2.2, ?_⟩
      rw [endpoint_of_false, ← hb, ← ho]
      exact hr
  · intro ⟨d, hd⟩
    cases thisS
    · rw [endpoint_of_false] at hd
      refine List.mem_append.mpr (Or.inr ?_)
      exact List.mem_map.mpr ⟨(b, otherS),
        List.mem_map.mpr ⟨(b, otherS, d), hd, rfl⟩, rfl⟩
    · rw [endpoint_of_true] at hd
      refine List.mem_append.mpr (Or.inl ?_)
      exact List.mem_map.mpr ⟨(b, otherS),
        List.mem_map.mpr ⟨(b, otherS, d), hd, rfl⟩, rfl⟩

/-- Every adjacency entry records two real segments whose selected endpoints
are within tolerance of each other. -/
theorem adjacency_dist {segments : List PathSegment} {tol : ℚ} (htol : 0 < tol)
    {a b : ℕ} {thisS otherS : Bool}
    (hmem : (b, thisS, otherS) ∈ build_adjacency_graph segments tol a) :
    ∃ s ∈ segments, ∃ t ∈ segments, s.segment_id = a ∧ t.segment_id = b ∧
      dist2 (endpoint_of s thisS) (endpoint_of t otherS) ≤ tol * tol := by
  unfold build_adjacency_graph at hmem
  rw [List.mem_flatMap] at hmem
  obtain ⟨s, hsf, hmem2⟩ := hmem
  have hsid : s.segment_id = a := by
    have := List.of_mem_filter hsf
    simpa using this
  have hsmem : s ∈ segments := List.mem_of_mem_filter hsf
  obtain ⟨d, hd⟩ := mem_adjacency_entries.mp hmem2
  rw [mem_find_nearby htol] at hd
  obtain ⟨e, he, hmatch⟩ := hd
  obtain ⟨hne, hdist, hr⟩ := nearby_match_eq_some.mp hmatch
  obtain ⟨t, htmem, htid, hpt⟩ := spatial_entries_sound he
  have hb : e.2.1 = b := (congrArg (fun x : ℕ × Bool × ℚ => x.1) hr).symm
  have ho : e.2.2 = otherS := by
    have := congrArg (fun x : ℕ × Bool × ℚ => x.2.1) hr
    simpa using this.symm
  refine ⟨s, hsmem, t, htmem, hsid, hb ▸ htid, ?_⟩
  rw [← ho, ← hpt]
  exact hdist

theorem findNextIn_spec {compIds visited : List ℕ} {exitEnd : Bool}
    {n : ℕ} {oS : Bool} :
    ∀ {l : List (ℕ × Bool × Bool)},
      findNextIn compIds visited exitEnd l = some (n, oS) →
      (n, !exitEnd, oS) ∈ l ∧ n ∈ compIds ∧ ¬ n ∈ visited
  | [], h => by cases h
  | (o, thisS, otherS) :: rest, h => by
    rw [findNextIn] at h
    split_ifs at h with hcond
    · obtain ⟨h1, h2, h3⟩ := hcond
      obtain ⟨rfl, rfl⟩ : o = n ∧ otherS = oS := by
        have := Option.some_inj.mp h
        exact ⟨congrArg Prod.fst this, congrArg Prod.snd this⟩
      have hts : thisS = !exitEnd := by
        cases thisS <;> cases exitEnd <;> simp_all
      exact ⟨hts ▸ List.mem_cons_self _ _, h1, h2⟩
    · have ih := findNextIn_spec h
      exact ⟨List.mem_cons_of_mem _ ih.1, ih.2⟩

/-- Endpoint adjacency of consecutive walk entries: after applying the
reversal flags, the first one's traversal end point is within tolerance of
the second one's traversal start point. -/
def chainRel (segsById : ℕ → PathSegment) (tol : ℚ) (a b : ℕ × Bool) : Prop :=
  dist2 (if a.2 then (segsById a.1).start else (segsById a.1).seg_end)
    (if b.2 then (segsById b.1).seg_end else (segsById b.1).start) ≤ tol * tol

theorem walkChain_head (adj : ℕ → List (ℕ × Bool × Bool)) (compIds : List ℕ)
    (fuel : ℕ) (visited : List ℕ) (cur : ℕ) (e : Bool) :
    walkChain adj compIds (fuel + 1) visited cur e
      = (cur, !e) ::
        (match findNext adj compIds (cur :: visited) cur e with
         | none => []
         | some (n, entersAtStart) =>
            walkChain adj compIds fuel (cur :: visited) n entersAtStart) := rfl

theorem walkChain_chain' {adj : ℕ → List (ℕ × Bool × Bool)} {compIds : List ℕ}
    {segsById : ℕ → PathSegment} {tol : ℚ}
    (hadj : ∀ cur n tS oS, (n, tS, oS) ∈ adj cur →
      dist2 (endpoint_of (segsById cur) tS) (endpoint_of (segsById n) oS) ≤ tol * tol) :
    ∀ (fuel : ℕ) (visited : List ℕ) (cur : ℕ) (exitEnd : Bool),
      List.Chain' (chainRel segsById tol) (walkChain adj compIds fuel visited cur exitEnd)
  | 0, _, _, _ => List.chain'_nil
  | fuel + 1, visited, cur, exitEnd => by
    rw [walkChain_head]
    cases hfn : findNext adj compIds (cur :: visited) cur exitEnd with
    | none => simp
    | some pr =>
      obtain ⟨n, eS⟩ := pr
      have hspec := findNextIn_spec (l := adj cur) hfn
      have hrel : chainRel segsById tol (cur, !exitEnd) (n, !eS) := by
        unfold chainRel
        have := hadj cur n (!exitEnd) eS hspec.1
        unfold endpoint_of at this
        cases exitEnd <;> cases eS <;> simpa using this
      have ihc := @walkChain_chain' adj compIds segsById tol hadj fuel (cur :: visited) n eS
      refine List.Chain'.cons' ihc ?_
      intro y hy
      have hy' : y ∈ (walkChain adj compIds fuel (cur :: visited) n eS).head? := hy
      cases fuel with
      | zero =>
        have hnil : walkChain adj compIds 0 (cur :: visited) n eS = [] := rfl
        rw [hnil] at hy'
        cases hy'
      | succ f =>
        rw [walkChain_head, List.head?_cons, Option.mem_def, Option.some_inj] at hy'
        rw [← hy']
        exact hrel

theorem segments_by_id_eq {segments : List PathSegment}
    (hnd : (segments.map (fun s => s.segment_id)).Nodup) {s : PathSegment}
    (hs : s ∈ segments) : segments_by_id segments s.segment_id = s := by
  unfold segments_by_id
  have hrev : s ∈ segments.reverse := List.mem_reverse.mpr hs
  cases hfind : segments.reverse.find? (fun t => t.segment_id = s.segment_id) with
  | none =>
    have := List.find?_eq_none.mp hfind s hrev
    simp at this
  | some t =>
    have hpt : t.segment_id = s.segment_id := by
      have := List.find?_some hfind
      simpa using this
    have htmem : t ∈ segments := List.mem_reverse.mp (List.mem_of_find?_eq_some hfind)
    have hinj := List.inj_on_of_nodup_map hnd
    have : t = s := hinj htmem hs hpt
    simp [this]

theorem build_adjacency_dist_fun {segments : List PathSegment} {tol : ℚ}
    (htol : 0 < tol) (hnd : (segments.map (fun s => s.segment_id)).Nodup) :
    ∀ cur n tS oS, (n, tS, oS) ∈ build_adjacency_graph segments tol cur →
      dist2 (endpoint_of (segments_by_id segments cur) tS)
        (endpoint_of (segments_by_id segments n) oS) ≤ tol * tol := by
  intro cur n tS oS hmem
  obtain ⟨s, hsmem, t, htmem, hsid, htid, hdist⟩ := adjacency_dist htol hmem
  rw [← hsid, ← htid, segments_by_id_eq hnd hsmem, segments_by_id_eq hnd htmem]
  exact hdist

theorem order_chain_chain' {adj : ℕ → List (ℕ × Bool × Bool)}
    {segsById : ℕ → PathSegment} {tol : ℚ} {compIds : List ℕ}
    (hadj : ∀ cur n tS oS, (n, tS, oS) ∈ adj cur →
      dist2 (endpoint_of (segsById cur) tS) (endpoint_of (segsById n) oS) ≤ tol * tol) :
    List.Chain' (chainRel segsById tol)
      (order_chain_segments compIds adj segsById tol).1 := by
  unfold order_chain_segments
  split_ifs with h
  · simp
  · exact walkChain_chain' hadj _ _ _ _

theorem process_components_chains {segsById : ℕ → PathSegment}
    {adj : ℕ → List (ℕ × Bool × Bool)} {tol : ℚ}
    (hadj : ∀ cur n tS oS, (n, tS, oS) ∈ adj cur →
      dist2 (endpoint_of (segsById cur) tS) (endpoint_of (segsById n) oS) ≤ tol * tol) :
    ∀ (comps : List (List ℕ)) (cid : ℕ) (c : PathChain),
      c ∈ (process_components segsById adj tol comps cid).1 →
      c.segment_ids.length = 1 ∨
        ∃ ordered : List (ℕ × Bool),
          c.segment_ids = ordered.map Prod.fst ∧
          c.merged_d = merge_chain_paths ordered segsById ∧
          List.Chain' (chainRel segsById tol) ordered
  | [], _, c, hc => by cases hc
  | compIds :: rest, cid, c, hc => by
    rw [process_components] at hc
    split_ifs at hc with h1 h2
    · rcases List.mem_cons.mp hc with rfl | hc2
      · left
        rfl
      · exact process_components_chains hadj rest (cid + 1) c hc2
    · exact process_components_chains hadj rest cid c hc
    · rcases List.mem_cons.mp hc with rfl | hc2
      · right
        exact ⟨(order_chain_segments compIds adj segsById tol).1, rfl, rfl,
          order_chain_chain' hadj⟩
      · exact process_components_chains hadj rest (cid + 1) c hc2

theorem create_chains (cs : List PathChain) (os : List PathSegment) (n : ℕ) :
    (ClusterResult.create cs os n).chains = cs := rfl

theorem create_orphans (cs : List PathChain) (os : List PathSegment) (n : ℕ) :
    (ClusterResult.create cs os n).orphan_segments = os := rfl

theorem cluster_segments_chains_sound {segments : List PathSegment} {tol : ℚ}
    (htol : 0 < tol) (hnd : (segments.map (fun s => s.segment_id)).Nodup)
    {c : PathChain} (hc : c ∈ (cluster_segments segments tol).chains) :
    c.segment_ids.length = 1 ∨
      ∃ ordered : List (ℕ × Bool),
        c.segment_ids = ordered.map Prod.fst ∧
        c.merged_d = merge_chain_paths ordered (segments_by_id segments) ∧
        List.Chain' (chainRel (segments_by_id segments) tol) ordered := by
  unfold cluster_segments at hc
  split_ifs at hc with hempty
  · rw [create_chains] at hc
    cases hc
  · simp only [create_chains] at hc
    exact process_components_chains (build_adjacency_dist_fun htol hnd) _ _ c hc

/-! ## Additional small lemmas for the claims -/

theorem dist2_comm (p q : Point) : dist2 p q = dist2 q p := by
  rw [dist2_eq, dist2_eq]
  ring

theorem cell_size_zero : cell_size 0 = 0 := by
  rw [cell_size_eq]
  ring

/-! ## Concrete inputs used by witnesses and counterexamples -/

/-- A shared plain stroke style for concrete examples. -/
def demo_attrs : VisualAttrs := ⟨1, "#000"⟩

/-- T-junction: three segments meeting at `(1,0)` — a branch point. -/
def tj_segments : List PathSegment :=
  [⟨0, ⟨0, 0⟩, ⟨1, 0⟩, "M 0 0 L 1 0", demo_attrs, false⟩,
   ⟨1, ⟨1, 0⟩, ⟨2, 0⟩, "M 1 0 L 2 0", demo_attrs, false⟩,
   ⟨2, ⟨1, 0⟩, ⟨1, 1⟩, "M 1 0 L 1 1", demo_attrs, false⟩]

/-- Two collinear segments sharing the endpoint `(10,0)`. -/
def chain2_segments : List PathSegment :=
  [⟨0, ⟨0, 0⟩, ⟨10, 0⟩, "M 0 0 L 10 0", demo_attrs, false⟩,
   ⟨1, ⟨10, 0⟩, ⟨20, 0⟩, "M 10 0 L 20 0", demo_attrs, false⟩]

/-- Branch point with unequal distances: segment 0 exits at `(1,0)`;
segment 2's start is exactly there (distance 0) while segment 1's start is at
distance `0.4` — within tolerance `0.5` but farther, with a lower id. -/
def branch_segments : List PathSegment :=
  [⟨0, ⟨0, 0⟩, ⟨1, 0⟩, "M 0 0 L 1 0", demo_attrs, false⟩,
   ⟨1, ⟨1, mkRat 2 5⟩, ⟨5, 5⟩, "M 1 0.4 L 5 5", demo_attrs, false⟩,
   ⟨2, ⟨1, 0⟩, ⟨9, 0⟩, "M 1 0 L 9 0", demo_attrs, false⟩]

/-- A self-closing segment (closed, start within tolerance of end) next to an
open segment whose start touches only the closed segment's unindexed end. -/
def selfclose_segments : List PathSegment :=
  [⟨0, ⟨0, 0⟩, ⟨mkRat 2 5, 0⟩, "M 0 0 L 1 1 M 0.4 0 Z", demo_attrs, true⟩,
   ⟨1, ⟨mkRat 4 5, 0⟩, ⟨5, 5⟩, "M 0.8 0 L 5 5", demo_attrs, false⟩]

/-! ## The claims -/

/-- C1 (code_bug evidence): `cluster_segments` on the T-junction input drops
segment 2 entirely — it appears in no chain and in no orphan entry, so the
sum of chain lengths plus the orphan count is 2 while the input had 3
segments, violating the partition invariant the spec states for all inputs. -/
theorem cluster_segments_drops_branch_segment :
    ((cluster_segments tj_segments (mkRat 1 2)).chains.map
        (fun c => c.segment_ids)) = [[0, 1]]
    ∧ (cluster_segments tj_segments (mkRat 1 2)).orphan_segments = []
    ∧ (cluster_segments tj_segments (mkRat 1 2)).stats.total_input_segments = 3
    ∧ ((cluster_segments tj_segments (mkRat 1 2)).chains.map
          (fun c => c.segment_ids.length)).sum
        + (cluster_segments tj_segments (mkRat 1 2)).orphan_segments.length = 2 := by
  refine ⟨by decide, by decide, by decide, by decide⟩

/-- C2: reversing a cubic swaps its two control points along with start/end,
a quadratic keeps its control point with start/end swapped, an arc keeps
radii and rotation and flips the sweep flag with start/end swapped; and the
sequence parsed from the text `M 0,0 C 1,2 3,4 5,6` reverses to first point
`(5,6)`, control points `(3,4)` then `(1,2)`, and terminus `(0,0)`. -/
theorem reverse_path_commands_rules :
    (∀ x1 y1 x2 y2 x y : ℚ, ∀ sp ep : Point,
      revOne ⟨'C', [x1, y1, x2, y2, x, y], sp, ep⟩
        = [('C', [x2, y2, x1, y1, sp.x, sp.y])])
    ∧ (∀ x1 y1 x y : ℚ, ∀ sp ep : Point,
      revOne ⟨'Q', [x1, y1, x, y], sp, ep⟩ = [('Q', [x1, y1, sp.x, sp.y])])
    ∧ (∀ rx ry rot laf sw x y : ℚ, ∀ sp ep : Point,
      revOne ⟨'A', [rx, ry, rot, laf, sw, x, y], sp, ep⟩
        = [('A', [rx, ry, rot, laf, 1 - sw, sp.x, sp.y])])
    ∧ reverse_path_commands (parse_path_commands "M 0,0 C 1,2 3,4 5,6")
        = [('M', [5, 6]), ('C', [3, 4, 1, 2, 0, 0])] := by
  refine ⟨?_, ?_, ?_, by decide⟩
  · intro x1 y1 x2 y2 x y sp ep
    rfl
  · intro x1 y1 x y sp ep
    rfl
  · intro rx ry rot laf sw x y sp ep
    show [('A', [rx, ry, rot, laf, rsub 1 sw, sp.x, sp.y])] = _
    rw [rsub_eq]

/-- C3 (code behavior at the failing input): reversing a parsed sequence that
contains a smooth-curve shorthand `S` command returns normally with only the
move command left — the `S` geometry is silently dropped, and no error is
raised anywhere on this path. -/
theorem reverse_path_commands_drops_smooth_silently :
    reverse_path_commands [('M', [0, 0]), ('S', [1, 1, 2, 2])] = [('M', [0, 0])]
    ∧ extract_endpoints_cmds [('M', [0, 0]), ('S', [1, 1, 2, 2])]
        = some (⟨0, 0⟩, ⟨2, 2⟩) := by
  refine ⟨by decide, by decide⟩

/-- C4: every chain of two or more segments produced by `cluster_segments`
was built from an ordered `(segment_id, needs_reversal)` walk, and
consecutive members of that walk are endpoint-adjacent — after applying each
reversal flag, member i's traversal-end point is within tolerance of member
i+1's traversal-start point (distances squared against `tol * tol`). -/
theorem cluster_chain_continuity (segments : List PathSegment) (tol : ℚ)
    (htol : 0 < tol) (hnd : (segments.map (fun s => s.segment_id)).Nodup)
    (c : PathChain) (hc : c ∈ (cluster_segments segments tol).chains)
    (hlen : 2 ≤ c.segment_ids.length) :
    ∃ ordered : List (ℕ × Bool),
      c.segment_ids = ordered.map Prod.fst ∧
      c.merged_d = merge_chain_paths ordered (segments_by_id segments) ∧
      List.Chain' (chainRel (segments_by_id segments) tol) ordered := by
  rcases cluster_segments_chains_sound htol hnd hc with h1 | h2
  · rw [h1] at hlen
    omega
  · exact h2

/-- Witness for C4 at the two-collinear-segment input. -/
theorem cluster_chain_continuity_witness :
    ∃ ordered : List (ℕ × Bool),
      (⟨0, [0, 1], "M 0 0 L 10 0 L 20 0", demo_attrs, false⟩ : PathChain).segment_ids
          = ordered.map Prod.fst ∧
      (⟨0, [0, 1], "M 0 0 L 10 0 L 20 0", demo_attrs, false⟩ : PathChain).merged_d
          = merge_chain_paths ordered (segments_by_id chain2_segments) ∧
      List.Chain' (chainRel (segments_by_id chain2_segments) (mkRat 1 2)) ordered :=
  cluster_chain_continuity chain2_segments (mkRat 1 2)
    ((rlt_iff 0 (mkRat 1 2)).mp (by decide)) (by decide)
    ⟨0, [0, 1], "M 0 0 L 10 0 L 20 0", demo_attrs, false⟩ (by decide) (by decide)

/-- C5 (counterexample): at segment 0's exit point `(1,0)` both segment 1
(distance 2/5) and segment 2 (distance 0) are unvisited candidate neighbors,
1 < 2, yet the walk follows segment 2 — the nearer candidate — not the
lowest unvisited id. -/
theorem branch_choice_not_lowest_id :
    (1, false, true) ∈ (build_adjacency_graph branch_segments (mkRat 1 2)) 0
    ∧ (2, false, true) ∈ (build_adjacency_graph branch_segments (mkRat 1 2)) 0
    ∧ (order_chain_segments [0, 1, 2]
        (build_adjacency_graph branch_segments (mkRat 1 2))
        (segments_by_id branch_segments) (mkRat 1 2)).1
        = [(0, false), (2, false)]
    ∧ (1 : ℕ) < 2 := by
  refine ⟨by decide, by decide, by decide, by decide⟩

/-- C8 (counterexample): segment 0 is self-closing, so its end point is not
indexed; segment 0 records a connection to segment 1 at segment 0's end, but
segment 1 records no connection to segment 0 at all. -/
theorem adjacency_not_symmetric_for_selfclosing :
    (1, false, true) ∈ (build_adjacency_graph selfclose_segments (mkRat 1 2)) 0
    ∧ (build_adjacency_graph selfclose_segments (mkRat 1 2)) 1 = [] := by
  refine ⟨by decide, by decide⟩

theorem foldl_add_none (tol : ℚ) :
    ∀ l : List PathSegment,
      l.foldl (fun acc seg => acc.bind fun _ => add_segment_checked tol seg) none
        = none
  | [] => rfl
  | a :: l => by
    rw [List.foldl_cons, Option.none_bind]
    exact foldl_add_none tol l

/-- C9: the cell-coordinate computation divides by the cell size
`2 * tolerance`, so with tolerance 0 indexing any endpoint fails
(`ZeroDivisionError`, modelled as `none`); clustering any non-empty segment
list therefore fails at tolerance 0 and succeeds exactly under the
precondition `tolerance ≠ 0`. -/
theorem cluster_requires_nonzero_tolerance (segments : List PathSegment)
    (tol : ℚ) (p : Point) :
    cell_coords_checked (cell_size 0) p = none
    ∧ (segments ≠ [] → tol = 0 → cluster_segments_checked segments tol = none)
    ∧ (tol ≠ 0 → cluster_segments_checked segments tol
        = some (cluster_segments segments tol)) := by
  refine ⟨?_, ?_, ?_⟩
  · rw [cell_size_zero]
    rfl
  · intro hne h0
    subst h0
    unfold cluster_segments_checked
    rw [if_neg hne]
    have hfail : add_segments_checked 0 segments = none := by
      cases segments with
      | nil => exact absurd rfl hne
      | cons s0 rest =>
        unfold add_segments_checked
        rw [List.foldl_cons]
        have h1 : add_segment_checked 0 s0 = none := by
          unfold add_segment_checked
          rw [cell_size_zero]
          rfl
        have h2 : ((some ()).bind fun _ => add_segment_checked 0 s0) = none := h1
        rw [h2]
        exact foldl_add_none 0 rest
    rw [hfail]
    rfl
  · intro hne
    unfold cluster_segments_checked
    split_ifs with hempty
    · rw [hempty]
      unfold cluster_segments
      rw [if_pos rfl]
    · have hcs : cell_size tol ≠ 0 := by
        rw [cell_size_eq]
        intro h
        rcases mul_eq_zero.mp h with h | h
        · exact hne h
        · norm_num at h
      have hok : ∀ seg, add_segment_checked tol seg = some () := by
        intro seg
        unfold add_segment_checked cell_coords_checked
        rw [if_neg hcs]
        split_ifs with hcond
        · rfl
        · rfl
      have hall : ∀ l : List PathSegment, add_segments_checked tol l = some () := by
        intro l
        unfold add_segments_checked
        induction l with
        | nil => rfl
        | cons a l2 ih =>
          rw [List.foldl_cons]
          have hstep : ((some ()).bind fun _ => add_segment_checked tol a) = some () :=
            hok a
          rw [hstep]
          exact ih
      rw [hall segments]
      rfl

/-- Witness for C9 at a one-segment input with tolerances 0 and 1. -/
theorem cluster_requires_nonzero_tolerance_witness :
    cluster_segments_checked (List.take 1 tj_segments) 0 = none
    ∧ cluster_segments_checked (List.take 1 tj_segments) 1
        = some (cluster_segments (List.take 1 tj_segments) 1) :=
  ⟨(cluster_requires_nonzero_tolerance (List.take 1 tj_segments) 0 ⟨0, 0⟩).2.1
      (by decide) rfl,
   (cluster_requires_nonzero_tolerance (List.take 1 tj_segments) 1 ⟨0, 0⟩).2.2
      (by norm_num)⟩

/-- C6: on any populated index and query point, `find_nearby_endpoints`
returns exactly the indexed endpoints within tolerance of the query point
excluding the given segment id (as a permutation of the filtered whole-index
entry list, so the 3x3 cell block loses no true match), sorted by
`(distance, segment_id)`. -/
theorem find_nearby_endpoints_exact (tol : ℚ) (htol : 0 < tol)
    (entries : List SpatialEntry) (p : Point) (excl : ℕ) :
    (find_nearby_endpoints tol entries p excl).Perm
      (entries.filterMap (fun e =>
        if e.2.1 ≠ excl ∧ dist2 p e.1 ≤ tol * tol then
          some (e.2.1, e.2.2, dist2 p e.1)
        else none))
    ∧ List.Sorted nearLE (find_nearby_endpoints tol entries p excl) := by
  constructor
  · refine (find_nearby_perm htol entries p excl).trans ?_
    have hfn : ∀ e : SpatialEntry, nearby_match tol p excl e
        = if e.2.1 ≠ excl ∧ dist2 p e.1 ≤ tol * tol then
            some (e.2.1, e.2.2, dist2 p e.1)
          else none := by
      intro e
      unfold nearby_match
      by_cases h1 : e.2.1 = excl
      · rw [if_pos h1, if_neg (by tauto)]
      · rw [if_neg h1]
        by_cases h2 : rle (dist2 p e.1) (rmul tol tol) = true
        · have h2' : dist2 p e.1 ≤ tol * tol := by
            rw [rle_iff, rmul_eq] at h2
            exact h2
          rw [if_pos h2, if_pos ⟨h1, h2'⟩]
        · have h2' : ¬ dist2 p e.1 ≤ tol * tol := by
            rw [rle_iff, rmul_eq] at h2
            exact h2
          rw [if_neg h2, if_neg (by tauto)]
    rw [List.filterMap_congr (fun e _ => hfn e)]
  · exact find_nearby_sorted tol entries p excl

/-- Witness for C6 on the branch-point index. -/
theorem find_nearby_endpoints_exact_witness :
    (find_nearby_endpoints (mkRat 1 2)
        (spatial_entries (mkRat 1 2) branch_segments) ⟨1, 0⟩ 0).Perm
      ((spatial_entries (mkRat 1 2) branch_segments).filterMap (fun e =>
        if e.2.1 ≠ 0 ∧ dist2 ⟨1, 0⟩ e.1 ≤ (mkRat 1 2) * (mkRat 1 2) then
          some (e.2.1, e.2.2, dist2 ⟨1, 0⟩ e.1)
        else none))
    ∧ List.Sorted nearLE (find_nearby_endpoints (mkRat 1 2)
        (spatial_entries (mkRat 1 2) branch_segments) ⟨1, 0⟩ 0) :=
  find_nearby_endpoints_exact (mkRat 1 2) ((rlt_iff 0 (mkRat 1 2)).mp (by decide))
    (spatial_entries (mkRat 1 2) branch_segments) ⟨1, 0⟩ 0

/-! ## C5: what the walk actually follows at a branch point -/

theorem find_nearby_dist_eq {tol : ℚ} (htol : 0 < tol)
    {segments : List PathSegment}
    (hnd : (segments.map (fun s => s.segment_id)).Nodup)
    {p : Point} {excl : ℕ} {r : ℕ × Bool × ℚ}
    (hr : r ∈ find_nearby_endpoints tol (spatial_entries tol segments) p excl) :
    r.2.2 = dist2 p (endpoint_of (segments_by_id segments r.1) r.2.1) := by
  rw [mem_find_nearby htol] at hr
  obtain ⟨e, he, hm⟩ := hr
  obtain ⟨hne, hdist, hreq⟩ := nearby_match_eq_some.mp hm
  obtain ⟨t, htmem, htid, hpt⟩ := spatial_entries_sound he
  subst hreq
  show dist2 p e.1 = dist2 p (endpoint_of (segments_by_id segments e.2.1) e.2.2)
  rw [← htid, segments_by_id_eq hnd htmem, ← hpt]

theorem findNextIn_append_skip {compIds visited : List ℕ} {exitEnd : Bool} :
    ∀ {A B : List (ℕ × Bool × Bool)},
      (∀ e ∈ A, ¬(e.1 ∈ compIds ∧ ¬ e.1 ∈ visited ∧ e.2.1 ≠ exitEnd)) →
      findNextIn compIds visited exitEnd (A ++ B)
        = findNextIn compIds visited exitEnd B
  | [], _, _ => rfl
  | (o, tS, oS) :: A, B, h => by
    rw [List.cons_append, findNextIn, if_neg (h _ (List.mem_cons_self _ _))]
    exact findNextIn_append_skip (fun e he => h e (List.mem_cons_of_mem _ he))

theorem findNextIn_append_stop {compIds visited : List ℕ} {exitEnd : Bool} :
    ∀ {A B : List (ℕ × Bool × Bool)},
      (∀ e ∈ B, ¬(e.1 ∈ compIds ∧ ¬ e.1 ∈ visited ∧ e.2.1 ≠ exitEnd)) →
      findNextIn compIds visited exitEnd (A ++ B)
        = findNextIn compIds visited exitEnd A
  | [], B, h => by
    rw [List.nil_append]
    have hskip : findNextIn compIds visited exitEnd (B ++ [])
        = findNextIn compIds visited exitEnd [] := findNextIn_append_skip h
    rw [List.append_nil] at hskip
    exact hskip
  | (o, tS, oS) :: A, B, h => by
    rw [List.cons_append, findNextIn, findNextIn]
    split_ifs
    · rfl
    · exact findNextIn_append_stop h

theorem findNextIn_block_min {compIds visited : List ℕ} {exitEnd : Bool} :
    ∀ {triples : List (ℕ × Bool × ℚ)}, List.Sorted nearLE triples →
      ∀ {n : ℕ} {oS : Bool},
      findNextIn compIds visited exitEnd
        (triples.map (fun r => (r.1, !exitEnd, r.2.1))) = some (n, oS) →
      ∃ dn, (n, oS, dn) ∈ triples ∧
        ∀ r ∈ triples, r.1 ∈ compIds → ¬ r.1 ∈ visited →
          (dn < r.2.2 ∨ (dn = r.2.2 ∧ n ≤ r.1))
  | [], _, _, _, h => by cases h
  | t :: ts, hsorted, n, oS, h => by
    have hflag : (!exitEnd) ≠ exitEnd := by
      cases exitEnd <;> simp
    rw [List.map_cons, findNextIn] at h
    split_ifs at h with hcond
    · have heq := Option.some_inj.mp h
      have hn : t.1 = n := congrArg Prod.fst heq
      have ho : t.2.1 = oS := congrArg Prod.snd heq
      refine ⟨t.2.2, ?_, ?_⟩
      · rw [← hn, ← ho]
        exact List.mem_cons_self _ _
      · intro r hr hrc hrv
        rcases List.mem_cons.mp hr with rfl | hr2
        · right
          exact ⟨rfl, le_of_eq hn.symm⟩
        · have hrel := (List.sorted_cons.mp hsorted).1 r hr2
          unfold nearLE at hrel
          rw [rlt_iff] at hrel
          rcases hrel with h1 | ⟨h1, h2⟩
          · left
            exact h1
          · right
            exact ⟨h1, hn ▸ h2⟩
    · obtain ⟨dn, hmem, hmin⟩ :=
        findNextIn_block_min (List.sorted_cons.mp hsorted).2 h
      refine ⟨dn, List.mem_cons_of_mem _ hmem, ?_⟩
      intro r hr hrc hrv
      rcases List.mem_cons.mp hr with rfl | hr2
      · exact absurd ⟨hrc, hrv, hflag⟩ hcond
      · exact hmin r hr2 hrc hrv

theorem mem_map_triple {l : List (ℕ × Bool × ℚ)} {b flag : Bool} {m : ℕ}
    {moS : Bool} (h : (m, flag, moS) ∈ l.map (fun r => (r.1, b, r.2.1))) :
    flag = b ∧ ∃ r ∈ l, r.1 = m ∧ r.2.1 = moS := by
  rcases List.mem_map.mp h with ⟨r, hr, he⟩
  refine ⟨?_, r, hr, ?_, ?_⟩
  · have := congrArg (fun t : ℕ × Bool × Bool => t.2.1) he
    simpa using this.symm
  · exact congrArg Prod.fst he
  · have := congrArg (fun t : ℕ × Bool × Bool => t.2.2) he
    simpa using this

/-- C5 amended: whenever the chain walk follows a neighbor, that neighbor
minimizes (distance from the current exit endpoint, segment id)
lexicographically among all unvisited in-component candidates connected at
the exit endpoint — the lowest id wins only among equidistant candidates. -/
theorem branch_choice_minimizes_distance_then_id
    (segments : List PathSegment) (tol : ℚ) (htol : 0 < tol)
    (hnd : (segments.map (fun s => s.segment_id)).Nodup)
    (compIds visited : List ℕ) (exitEnd : Bool)
    (s : PathSegment) (hs : s ∈ segments) (n : ℕ) (oS : Bool)
    (hn : findNext (build_adjacency_graph segments tol) compIds visited
        s.segment_id exitEnd = some (n, oS))
    (m : ℕ) (moS : Bool)
    (hm : (m, !exitEnd, moS) ∈ build_adjacency_graph segments tol s.segment_id)
    (hmc : m ∈ compIds) (hmv : ¬ m ∈ visited) :
    dist2 (endpoint_of s (!exitEnd)) (endpoint_of (segments_by_id segments n) oS)
        < dist2 (endpoint_of s (!exitEnd)) (endpoint_of (segments_by_id segments m) moS)
      ∨ (dist2 (endpoint_of s (!exitEnd)) (endpoint_of (segments_by_id segments n) oS)
          = dist2 (endpoint_of s (!exitEnd)) (endpoint_of (segments_by_id segments m) moS)
        ∧ n ≤ m) := by
  unfold findNext at hn
  unfold build_adjacency_graph at hn hm
  rw [filter_id_eq_single hnd hs] at hn hm
  rw [List.flatMap_cons, List.flatMap_nil, List.append_nil] at hn hm
  simp only [adjacency_entries, find_connections] at hn hm
  rw [List.map_map, List.map_map] at hn hm
  simp only [Function.comp_def] at hn hm
  set startT := find_nearby_endpoints tol (spatial_entries tol segments)
    s.start s.segment_id with hstartT
  set endT := find_nearby_endpoints tol (spatial_entries tol segments)
    s.seg_end s.segment_id with hendT
  cases exitEnd
  · -- exit from start: active block is the start-connection block (first)
    have hB : ∀ e ∈ endT.map (fun r : ℕ × Bool × ℚ => (r.1, false, r.2.1)),
        ¬(e.1 ∈ compIds ∧ ¬ e.1 ∈ visited ∧ e.2.1 ≠ false) := by
      intro e he
      rcases List.mem_map.mp he with ⟨r, hr, rfl⟩
      simp
    rw [findNextIn_append_stop hB] at hn
    have hn' : findNextIn compIds visited false
        (startT.map (fun r : ℕ × Bool × ℚ => (r.1, !false, r.2.1))) = some (n, oS) := by
      simpa using hn
    obtain ⟨dn, hdn, hmin⟩ := findNextIn_block_min (find_nearby_sorted _ _ _ _) hn'
    have hmA : (m, !false, moS) ∈ startT.map
        (fun r : ℕ × Bool × ℚ => (r.1, true, r.2.1)) := by
      rcases List.mem_append.mp hm with h1 | h1
      · simpa using h1
      · exfalso
        rcases List.mem_map.mp h1 with ⟨r, hr, he⟩
        have := congrArg (fun t : ℕ × Bool × Bool => t.2.1) he
        simp at this
    obtain ⟨_, rm, hrm, hrm1, hrm2⟩ := mem_map_triple hmA
    have hdneq := find_nearby_dist_eq htol hnd (hstartT ▸ hdn)
    have hdmeq := find_nearby_dist_eq htol hnd (hstartT ▸ hrm)
    have hmin' := hmin rm hrm (hrm1 ▸ hmc) (hrm1 ▸ hmv)
    rw [show ((n, oS, dn) : ℕ × Bool × ℚ).2.2 = dn from rfl] at hdneq
    rw [show ((n, oS, dn) : ℕ × Bool × ℚ).2.1 = oS from rfl] at hdneq
    rw [show ((n, oS, dn) : ℕ × Bool × ℚ).1 = n from rfl] at hdneq
    rw [hrm1, hrm2] at hdmeq
    rw [show endpoint_of s (!false) = s.start from rfl]
    rw [← hdneq, ← hdmeq]
    rcases hmin' with h1 | ⟨h1, h2⟩
    · left
      exact h1
    · right
      exact ⟨h1, hrm1 ▸ h2⟩
  · -- exit from end: skip the start-connection block, active block second
    have hA : ∀ e ∈ startT.map (fun r : ℕ × Bool × ℚ => (r.1, true, r.2.1)),
        ¬(e.1 ∈ compIds ∧ ¬ e.1 ∈ visited ∧ e.2.1 ≠ true) := by
      intro e he
      rcases List.mem_map.mp he with ⟨r, hr, rfl⟩
      simp
    rw [findNextIn_append_skip hA] at hn
    have hn' : findNextIn compIds visited true
        (endT.map (fun r : ℕ × Bool × ℚ => (r.1, !true, r.2.1))) = some (n, oS) := by
      simpa using hn
    obtain ⟨dn, hdn, hmin⟩ := findNextIn_block_min (find_nearby_sorted _ _ _ _) hn'
    have hmB : (m, !true, moS) ∈ endT.map
        (fun r : ℕ × Bool × ℚ => (r.1, false, r.2.1)) := by
      rcases List.mem_append.mp hm with h1 | h1
      · exfalso
        rcases List.mem_map.mp h1 with ⟨r, hr, he⟩
        have := congrArg (fun t : ℕ × Bool × Bool => t.2.1) he
        simp at this
      · simpa using h1
    obtain ⟨_, rm, hrm, hrm1, hrm2⟩ := mem_map_triple hmB
    have hdneq := find_nearby_dist_eq htol hnd (hendT ▸ hdn)
    have hdmeq := find_nearby_dist_eq htol hnd (hendT ▸ hrm)
    have hmin' := hmin rm hrm (hrm1 ▸ hmc) (hrm1 ▸ hmv)
    rw [show ((n, oS, dn) : ℕ × Bool × ℚ).2.2 = dn from rfl] at hdneq
    rw [show ((n, oS, dn) : ℕ × Bool × ℚ).2.1 = oS from rfl] at hdneq
    rw [show ((n, oS, dn) : ℕ × Bool × ℚ).1 = n from rfl] at hdneq
    rw [hrm1, hrm2] at hdmeq
    rw [show endpoint_of s (!true) = s.seg_end from rfl]
    rw [← hdneq, ← hdmeq]
    rcases hmin' with h1 | ⟨h1, h2⟩
    · left
      exact h1
    · right
      exact ⟨h1, hrm1 ▸ h2⟩

/-- Witness for the amended C5 at the unequal-distance branch point:
segment 2 (distance 0) is followed over segment 1 (distance 2/5, lower id). -/
theorem branch_choice_minimizes_witness :
    dist2 (endpoint_of (⟨0, ⟨0, 0⟩, ⟨1, 0⟩, "M 0 0 L 1 0", demo_attrs, false⟩ :
          PathSegment) (!true))
        (endpoint_of (segments_by_id branch_segments 2) true)
      < dist2 (endpoint_of (⟨0, ⟨0, 0⟩, ⟨1, 0⟩, "M 0 0 L 1 0", demo_attrs, false⟩ :
          PathSegment) (!true))
        (endpoint_of (segments_by_id branch_segments 1) true)
    ∨ (dist2 (endpoint_of (⟨0, ⟨0, 0⟩, ⟨1, 0⟩, "M 0 0 L 1 0", demo_attrs, false⟩ :
          PathSegment) (!true))
        (endpoint_of (segments_by_id branch_segments 2) true)
      = dist2 (endpoint_of (⟨0, ⟨0, 0⟩, ⟨1, 0⟩, "M 0 0 L 1 0", demo_attrs, false⟩ :
          PathSegment) (!true))
        (endpoint_of (segments_by_id branch_segments 1) true)
      ∧ (2 : ℕ) ≤ 1) :=
  branch_choice_minimizes_distance_then_id branch_segments (mkRat 1 2)
    ((rlt_iff 0 (mkRat 1 2)).mp (by decide)) (by decide) [0, 1, 2] [0] true
    ⟨0, ⟨0, 0⟩, ⟨1, 0⟩, "M 0 0 L 1 0", demo_attrs, false⟩ (by decide) 2 true
    (by decide) 1 true (by decide) (by decide) (by decide)

/-- C8 amended: with a positive tolerance, duplicate-free segment ids, and
no self-closing segment (closed with start within tolerance of end — whose
end point the index would omit), the adjacency relation is symmetric: if
segment A records a connection to B at one of A's endpoints, B records the
connection to A at the corresponding endpoint. -/
theorem adjacency_symmetric (segments : List PathSegment) (tol : ℚ)
    (htol : 0 < tol)
    (hnc : ∀ s ∈ segments,
      ¬(s.is_closed = true ∧ is_near s.start s.seg_end tol = true))
    (a b : ℕ) (aS bS : Bool)
    (hab : (b, aS, bS) ∈ build_adjacency_graph segments tol a) :
    (a, bS, aS) ∈ build_adjacency_graph segments tol b := by
  unfold build_adjacency_graph at hab ⊢
  rw [List.mem_flatMap] at hab
  obtain ⟨s, hsf, hmem⟩ := hab
  have hsid : s.segment_id = a := by
    simpa using List.of_mem_filter hsf
  have hsmem : s ∈ segments := List.mem_of_mem_filter hsf
  obtain ⟨d, hd⟩ := mem_adjacency_entries.mp hmem
  rw [mem_find_nearby htol] at hd
  obtain ⟨e, he, hmatch⟩ := hd
  obtain ⟨hne, hdist, hr⟩ := nearby_match_eq_some.mp hmatch
  obtain ⟨t, htmem, htid, hpt⟩ := spatial_entries_sound he
  have hb : e.2.1 = b := (congrArg (fun x : ℕ × Bool × ℚ => x.1) hr).symm
  have hosS : e.2.2 = bS := by
    have := congrArg (fun x : ℕ × Bool × ℚ => x.2.1) hr
    simpa using this.symm
  have htid' : t.segment_id = b := hb ▸ htid
  rw [List.mem_flatMap]
  refine ⟨t, ?_, ?_⟩
  · rw [List.mem_filter]
    exact ⟨htmem, by simp [htid']⟩
  · rw [mem_adjacency_entries]
    refine ⟨dist2 (endpoint_of t bS) (endpoint_of s aS), ?_⟩
    rw [mem_find_nearby htol]
    refine ⟨(endpoint_of s aS, s.segment_id, aS), ?_, ?_⟩
    · cases aS
      · refine end_mem_spatial_entries hsmem ?_
        have := hnc s hsmem
        tauto
      · exact start_mem_spatial_entries hsmem
    · rw [nearby_match_eq_some]
      refine ⟨?_, ?_, ?_⟩
      · show s.segment_id ≠ t.segment_id
        rw [hsid, htid']
        intro hcontra
        exact hne (by rw [hb, ← hcontra, ← hsid])
      · show dist2 (endpoint_of t bS) (endpoint_of s aS) ≤ tol * tol
        rw [dist2_comm, ← hosS, ← hpt]
        exact hdist
      · simp [hsid]

/-- Witness for the amended C8 on the two-collinear-segment input. -/
theorem adjacency_symmetric_witness :
    (0, true, false) ∈ build_adjacency_graph chain2_segments (mkRat 1 2) 1 :=
  adjacency_symmetric chain2_segments (mkRat 1 2)
    ((rlt_iff 0 (mkRat 1 2)).mp (by decide)) (by decide)
    0 1 false true (by decide)

/-! ## C10: characterization of `extract_endpoints` -/

/-- The claim's criterion: some move command (`M` or `m`) carries at least
two numeric arguments. -/
def has_qualifying_move (commands : List PathCmd) : Prop :=
  ∃ pc ∈ commands, (pc.1 = 'M' ∨ pc.1 = 'm') ∧ 2 ≤ pc.2.length

/-- The claim's replay of one command over (current point, subpath start):
the endpoint semantics of the source's step, with no start tracking. -/
def replayStep (st : Point × Point) (pc : PathCmd) : Point × Point :=
  ((extractStep ⟨none, st.1, st.2⟩ pc).cur, (extractStep ⟨none, st.1, st.2⟩ pc).sub)

/-- The current point after replaying all commands from the origin
(close-path returning to the subpath start is part of the step). -/
def replay_point (commands : List PathCmd) : Point :=
  (commands.foldl replayStep (⟨0, 0⟩, ⟨0, 0⟩)).1

/-- The point assigned by the first move command carrying at least two
numeric arguments, replaying the preceding commands for the relative case. -/
def first_move_start : Point × Point → List PathCmd → Option Point
  | _, [] => none
  | st, (c, args) :: rest =>
    if c = 'M' then
      match args with
      | a0 :: a1 :: _ => some ⟨a0, a1⟩
      | _ => first_move_start (replayStep st (c, args)) rest
    else if c = 'm' then
      match args with
      | a0 :: a1 :: _ => some ⟨radd st.1.x a0, radd st.1.y a1⟩
      | _ => first_move_start (replayStep st (c, args)) rest
    else first_move_start (replayStep st (c, args)) rest

theorem fms_M2 (st : Point × Point) (a0 a1 : ℚ) (extra : List ℚ)
    (cs : List PathCmd) :
    first_move_start st (('M', a0 :: a1 :: extra) :: cs) = some ⟨a0, a1⟩ := rfl

theorem fms_m2 (st : Point × Point) (a0 a1 : ℚ) (extra : List ℚ)
    (cs : List PathCmd) :
    first_move_start st (('m', a0 :: a1 :: extra) :: cs)
      = some ⟨radd st.1.x a0, radd st.1.y a1⟩ := rfl

theorem fms_M0 (st : Point × Point) (cs : List PathCmd) :
    first_move_start st (('M', []) :: cs)
      = first_move_start (replayStep st ('M', [])) cs := rfl

theorem fms_M1 (st : Point × Point) (a0 : ℚ) (cs : List PathCmd) :
    first_move_start st (('M', [a0]) :: cs)
      = first_move_start (replayStep st ('M', [a0])) cs := rfl

theorem fms_m0 (st : Point × Point) (cs : List PathCmd) :
    first_move_start st (('m', []) :: cs)
      = first_move_start (replayStep st ('m', [])) cs := rfl

theorem fms_m1 (st : Point × Point) (a0 : ℚ) (cs : List PathCmd) :
    first_move_start st (('m', [a0]) :: cs)
      = first_move_start (replayStep st ('m', [a0])) cs := rfl

theorem fms_other (st : Point × Point) (c : Char) (args : List ℚ)
    (cs : List PathCmd) (hM : ¬ c = 'M') (hm : ¬ c = 'm') :
    first_move_start st ((c, args) :: cs)
      = first_move_start (replayStep st (c, args)) cs := by
  conv_lhs => unfold first_move_start
  rw [if_neg hM, if_neg hm]

theorem extractStep_proj (a b : Option Point) (cur sub : Point) (pc : PathCmd) :
    ((extractStep ⟨a, cur, sub⟩ pc).cur = (extractStep ⟨b, cur, sub⟩ pc).cur)
    ∧ ((extractStep ⟨a, cur, sub⟩ pc).sub = (extractStep ⟨b, cur, sub⟩ pc).sub) := by
  rcases pc with ⟨c, args⟩
  rw [extractStep, extractStep]
  by_cases h0 : c = 'M'
  · rw [if_pos h0, if_pos h0]
    rcases args with _ | ⟨a0, _ | ⟨a1, extra⟩⟩ <;> exact ⟨rfl, rfl⟩
  · rw [if_neg h0, if_neg h0]
    by_cases h1 : c = 'm'
    · rw [if_pos h1, if_pos h1]
      rcases args with _ | ⟨a0, _ | ⟨a1, extra⟩⟩ <;> exact ⟨rfl, rfl⟩
    · rw [if_neg h1, if_neg h1]
      by_cases h2 : c = 'L'
      · rw [if_pos h2, if_pos h2]
        exact ⟨rfl, rfl⟩
      · rw [if_neg h2, if_neg h2]
        by_cases h3 : c = 'l'
        · rw [if_pos h3, if_pos h3]
          exact ⟨rfl, rfl⟩
        · rw [if_neg h3, if_neg h3]
          by_cases h4 : c = 'H'
          · rw [if_pos h4, if_pos h4]
            unfold extractH
            rcases hL : args.getLast? with _ | v <;> exact ⟨rfl, rfl⟩
          · rw [if_neg h4, if_neg h4]
            by_cases h5 : c = 'h'
            · rw [if_pos h5, if_pos h5]
              exact ⟨rfl, rfl⟩
            · rw [if_neg h5, if_neg h5]
              by_cases h6 : c = 'V'
              · rw [if_pos h6, if_pos h6]
                unfold extractV
                rcases hL : args.getLast? with _ | v <;> exact ⟨rfl, rfl⟩
              · rw [if_neg h6, if_neg h6]
                by_cases h7 : c = 'v'
                · rw [if_pos h7, if_pos h7]
                  exact ⟨rfl, rfl⟩
                · rw [if_neg h7, if_neg h7]
                  by_cases h8 : c = 'C'
                  · rw [if_pos h8, if_pos h8]
                    exact ⟨rfl, rfl⟩
                  · rw [if_neg h8, if_neg h8]
                    by_cases h9 : c = 'c'
                    · rw [if_pos h9, if_pos h9]
                      exact ⟨rfl, rfl⟩
                    · rw [if_neg h9, if_neg h9]
                      by_cases h10 : c = 'S'
                      · rw [if_pos h10, if_pos h10]
                        exact ⟨rfl, rfl⟩
                      · rw [if_neg h10, if_neg h10]
                        by_cases h11 : c = 's'
                        · rw [if_pos h11, if_pos h11]
                          exact ⟨rfl, rfl⟩
                        · rw [if_neg h11, if_neg h11]
                          by_cases h12 : c = 'Q'
                          · rw [if_pos h12, if_pos h12]
                            exact ⟨rfl, rfl⟩
                          · rw [if_neg h12, if_neg h12]
                            by_cases h13 : c = 'q'
                            · rw [if_pos h13, if_pos h13]
                              exact ⟨rfl, rfl⟩
                            · rw [if_neg h13, if_neg h13]
                              by_cases h14 : c = 'T'
                              · rw [if_pos h14, if_pos h14]
                                exact ⟨rfl, rfl⟩
                              · rw [if_neg h14, if_neg h14]
                                by_cases h15 : c = 't'
                                · rw [if_pos h15, if_pos h15]
                                  exact ⟨rfl, rfl⟩
                                · rw [if_neg h15, if_neg h15]
                                  by_cases h16 : c = 'A'
                                  · rw [if_pos h16, if_pos h16]
                                    exact ⟨rfl, rfl⟩
                                  · rw [if_neg h16, if_neg h16]
                                    by_cases h17 : c = 'a'
                                    · rw [if_pos h17, if_pos h17]
                                      exact ⟨rfl, rfl⟩
                                    · rw [if_neg h17, if_neg h17]
                                      by_cases h18 : c = 'Z' ∨ c = 'z'
                                      · rw [if_pos h18, if_pos h18]
                                        exact ⟨rfl, rfl⟩
                                      · rw [if_neg h18, if_neg h18]
                                        exact ⟨rfl, rfl⟩

theorem extractStep_start_keep {st : ExtractState} {s : Point}
    (h : st.start = some s) (pc : PathCmd) :
    (extractStep st pc).start = some s := by
  rcases st with ⟨a, cur, sub⟩
  rcases pc with ⟨c, args⟩
  simp only at h
  subst h
  rw [extractStep]
  by_cases h0 : c = 'M'
  · rw [if_pos h0]
    rcases args with _ | ⟨a0, _ | ⟨a1, extra⟩⟩ <;> rfl
  · rw [if_neg h0]
    by_cases h1 : c = 'm'
    · rw [if_pos h1]
      rcases args with _ | ⟨a0, _ | ⟨a1, extra⟩⟩ <;> rfl
    · rw [if_neg h1]
      by_cases h2 : c = 'L'
      · rw [if_pos h2]
        rfl
      · rw [if_neg h2]
        by_cases h3 : c = 'l'
        · rw [if_pos h3]
          rfl
        · rw [if_neg h3]
          by_cases h4 : c = 'H'
          · rw [if_pos h4]
            unfold extractH
            rcases hL : args.getLast? with _ | v <;> try rfl
          · rw [if_neg h4]
            by_cases h5 : c = 'h'
            · rw [if_pos h5]
              rfl
            · rw [if_neg h5]
              by_cases h6 : c = 'V'
              · rw [if_pos h6]
                unfold extractV
                rcases hL : args.getLast? with _ | v <;> try rfl
              · rw [if_neg h6]
                by_cases h7 : c = 'v'
                · rw [if_pos h7]
                  rfl
                · rw [if_neg h7]
                  by_cases h8 : c = 'C'
                  · rw [if_pos h8]
                    rfl
                  · rw [if_neg h8]
                    by_cases h9 : c = 'c'
                    · rw [if_pos h9]
                      rfl
                    · rw [if_neg h9]
                      by_cases h10 : c = 'S'
                      · rw [if_pos h10]
                        rfl
                      · rw [if_neg h10]
                        by_cases h11 : c = 's'
                        · rw [if_pos h11]
                          rfl
                        · rw [if_neg h11]
                          by_cases h12 : c = 'Q'
                          · rw [if_pos h12]
                            rfl
                          · rw [if_neg h12]
                            by_cases h13 : c = 'q'
                            · rw [if_pos h13]
                              rfl
                            · rw [if_neg h13]
                              by_cases h14 : c = 'T'
                              · rw [if_pos h14]
                                rfl
                              · rw [if_neg h14]
                                by_cases h15 : c = 't'
                                · rw [if_pos h15]
                                  rfl
                                · rw [if_neg h15]
                                  by_cases h16 : c = 'A'
                                  · rw [if_pos h16]
                                    rfl
                                  · rw [if_neg h16]
                                    by_cases h17 : c = 'a'
                                    · rw [if_pos h17]
                                      rfl
                                    · rw [if_neg h17]
                                      by_cases h18 : c = 'Z' ∨ c = 'z'
                                      · rw [if_pos h18]
                                        rfl
                                      · rw [if_neg h18]

theorem extractStep_start_none_of_not_qual {cur sub : Point} {c : Char}
    {args : List ℚ} (hq : ¬((c = 'M' ∨ c = 'm') ∧ 2 ≤ args.length)) :
    (extractStep ⟨none, cur, sub⟩ (c, args)).start = none := by
  rw [extractStep]
  by_cases h0 : c = 'M'
  · rw [if_pos h0]
    rcases args with _ | ⟨a0, _ | ⟨a1, extra⟩⟩
    · rfl
    · rfl
    · exfalso
      apply hq
      refine ⟨Or.inl h0, ?_⟩
      simp
  · rw [if_neg h0]
    by_cases h1 : c = 'm'
    · rw [if_pos h1]
      rcases args with _ | ⟨a0, _ | ⟨a1, extra⟩⟩
      · rfl
      · rfl
      · exfalso
        apply hq
        refine ⟨Or.inr h1, ?_⟩
        simp
    · rw [if_neg h1]
      by_cases h2 : c = 'L'
      · rw [if_pos h2]
        rfl
      · rw [if_neg h2]
        by_cases h3 : c = 'l'
        · rw [if_pos h3]
          rfl
        · rw [if_neg h3]
          by_cases h4 : c = 'H'
          · rw [if_pos h4]
            unfold extractH
            rcases hL : args.getLast? with _ | v <;> try rfl
          · rw [if_neg h4]
            by_cases h5 : c = 'h'
            · rw [if_pos h5]
              rfl
            · rw [if_neg h5]
              by_cases h6 : c = 'V'
              · rw [if_pos h6]
                unfold extractV
                rcases hL : args.getLast? with _ | v <;> try rfl
              · rw [if_neg h6]
                by_cases h7 : c = 'v'
                · rw [if_pos h7]
                  rfl
                · rw [if_neg h7]
                  by_cases h8 : c = 'C'
                  · rw [if_pos h8]
                    rfl
                  · rw [if_neg h8]
                    by_cases h9 : c = 'c'
                    · rw [if_pos h9]
                      rfl
                    · rw [if_neg h9]
                      by_cases h10 : c = 'S'
                      · rw [if_pos h10]
                        rfl
                      · rw [if_neg h10]
                        by_cases h11 : c = 's'
                        · rw [if_pos h11]
                          rfl
                        · rw [if_neg h11]
                          by_cases h12 : c = 'Q'
                          · rw [if_pos h12]
                            rfl
                          · rw [if_neg h12]
                            by_cases h13 : c = 'q'
                            · rw [if_pos h13]
                              rfl
                            · rw [if_neg h13]
                              by_cases h14 : c = 'T'
                              · rw [if_pos h14]
                                rfl
                              · rw [if_neg h14]
                                by_cases h15 : c = 't'
                                · rw [if_pos h15]
                                  rfl
                                · rw [if_neg h15]
                                  by_cases h16 : c = 'A'
                                  · rw [if_pos h16]
                                    rfl
                                  · rw [if_neg h16]
                                    by_cases h17 : c = 'a'
                                    · rw [if_pos h17]
                                      rfl
                                    · rw [if_neg h17]
                                      by_cases h18 : c = 'Z' ∨ c = 'z'
                                      · rw [if_pos h18]
                                        rfl
                                      · rw [if_neg h18]

theorem extract_fold_cur_sub :
    ∀ (cs : List PathCmd) (a : Option Point) (cur sub : Point),
      ((cs.foldl extractStep ⟨a, cur, sub⟩).cur,
        (cs.foldl extractStep ⟨a, cur, sub⟩).sub)
        = cs.foldl replayStep (cur, sub)
  | [], _, _, _ => rfl
  | pc :: cs, a, cur, sub => by
    rw [List.foldl_cons, List.foldl_cons]
    obtain ⟨hc, hs⟩ := extractStep_proj a none cur sub pc
    have hstep : replayStep (cur, sub) pc
        = ((extractStep ⟨a, cur, sub⟩ pc).cur, (extractStep ⟨a, cur, sub⟩ pc).sub) := by
      unfold replayStep
      rw [hc, hs]
    rw [hstep]
    exact extract_fold_cur_sub cs (extractStep ⟨a, cur, sub⟩ pc).start
      (extractStep ⟨a, cur, sub⟩ pc).cur (extractStep ⟨a, cur, sub⟩ pc).sub

theorem extract_fold_start_keep :
    ∀ (cs : List PathCmd) (st : ExtractState) (s : Point),
      st.start = some s → (cs.foldl extractStep st).start = some s
  | [], _, _, h => h
  | pc :: cs, st, s, h => by
    rw [List.foldl_cons]
    exact extract_fold_start_keep cs _ s (extractStep_start_keep h pc)

theorem extract_fold_start_none :
    ∀ (cs : List PathCmd) (cur sub : Point),
      (cs.foldl extractStep ⟨none, cur, sub⟩).start
        = first_move_start (cur, sub) cs
  | [], _, _ => rfl
  | (c, args) :: cs, cur, sub => by
    rw [List.foldl_cons]
    by_cases hM : c = 'M'
    · subst hM
      rcases args with _ | ⟨a0, _ | ⟨a1, extra⟩⟩
      · have heta : extractStep ⟨none, cur, sub⟩ ('M', []) = ⟨none, cur, sub⟩ := rfl
        rw [heta, extract_fold_start_none cs cur sub, fms_M0]
        rfl
      · have heta : extractStep ⟨none, cur, sub⟩ ('M', [a0]) = ⟨none, cur, sub⟩ := rfl
        rw [heta, extract_fold_start_none cs cur sub, fms_M1]
        rfl
      · have hstart : (extractStep ⟨none, cur, sub⟩ ('M', a0 :: a1 :: extra)).start
            = some ⟨a0, a1⟩ := rfl
        rw [extract_fold_start_keep cs _ _ hstart, fms_M2]
    · by_cases hm : c = 'm'
      · subst hm
        rcases args with _ | ⟨a0, _ | ⟨a1, extra⟩⟩
        · have heta : extractStep ⟨none, cur, sub⟩ ('m', []) = ⟨none, cur, sub⟩ := rfl
          rw [heta, extract_fold_start_none cs cur sub, fms_m0]
          rfl
        · have heta : extractStep ⟨none, cur, sub⟩ ('m', [a0]) = ⟨none, cur, sub⟩ := rfl
          rw [heta, extract_fold_start_none cs cur sub, fms_m1]
          rfl
        · have hstart : (extractStep ⟨none, cur, sub⟩ ('m', a0 :: a1 :: extra)).start
              = some ⟨radd cur.x a0, radd cur.y a1⟩ := rfl
          rw [extract_fold_start_keep cs _ _ hstart, fms_m2]
      · have hq : ¬((c = 'M' ∨ c = 'm') ∧ 2 ≤ args.length) := by tauto
        have hstart := @extractStep_start_none_of_not_qual cur sub c args hq
        have heta : extractStep ⟨none, cur, sub⟩ (c, args)
            = ⟨none, (replayStep (cur, sub) (c, args)).1,
                (replayStep (cur, sub) (c, args)).2⟩ := by
          have h0 : extractStep ⟨none, cur, sub⟩ (c, args)
              = ⟨(extractStep ⟨none, cur, sub⟩ (c, args)).start,
                  (extractStep ⟨none, cur, sub⟩ (c, args)).cur,
                  (extractStep ⟨none, cur, sub⟩ (c, args)).sub⟩ := rfl
          rw [h0, hstart]
          rfl
        rw [heta, extract_fold_start_none cs _ _, fms_other _ _ _ _ hM hm]

theorem has_qualifying_move_cons (c : Char) (args : List ℚ) (cs : List PathCmd) :
    has_qualifying_move ((c, args) :: cs) ↔
      (((c = 'M' ∨ c = 'm') ∧ 2 ≤ args.length) ∨ has_qualifying_move cs) := by
  unfold has_qualifying_move
  constructor
  · intro ⟨pc, hpc, hq⟩
    rcases List.mem_cons.mp hpc with rfl | h2
    · exact Or.inl hq
    · exact Or.inr ⟨pc, h2, hq⟩
  · intro h
    rcases h with h | ⟨pc, hpc, hq⟩
    · exact ⟨(c, args), List.mem_cons_self _ _, h⟩
    · exact ⟨pc, List.mem_cons_of_mem _ hpc, hq⟩

theorem first_move_start_none_iff :
    ∀ (cs : List PathCmd) (st : Point × Point),
      first_move_start st cs = none ↔ ¬ has_qualifying_move cs
  | [], st => by
    constructor
    · intro _ ⟨pc, hpc, _⟩
      cases hpc
    · intro _
      rfl
  | (c, args) :: cs, st => by
    rw [has_qualifying_move_cons]
    by_cases hM : c = 'M'
    · subst hM
      rcases args with _ | ⟨a0, _ | ⟨a1, extra⟩⟩
      · rw [fms_M0, first_move_start_none_iff cs _]
        have hnq : ¬((('M' : Char) = 'M' ∨ ('M' : Char) = 'm')
            ∧ 2 ≤ ([] : List ℚ).length) := by
          intro ⟨_, h2⟩
          simp at h2
        tauto
      · rw [fms_M1, first_move_start_none_iff cs _]
        have hnq : ¬((('M' : Char) = 'M' ∨ ('M' : Char) = 'm')
            ∧ 2 ≤ ([a0] : List ℚ).length) := by
          intro ⟨_, h2⟩
          simp at h2
        tauto
      · rw [fms_M2]
        have hq : (('M' : Char) = 'M' ∨ ('M' : Char) = 'm')
            ∧ 2 ≤ (a0 :: a1 :: extra : List ℚ).length := by
          refine ⟨Or.inl rfl, ?_⟩
          simp
        constructor
        · intro h
          cases h
        · intro h
          exact absurd (Or.inl hq) h
    · by_cases hm : c = 'm'
      · subst hm
        rcases args with _ | ⟨a0, _ | ⟨a1, extra⟩⟩
        · rw [fms_m0, first_move_start_none_iff cs _]
          have hnq : ¬((('m' : Char) = 'M' ∨ ('m' : Char) = 'm')
              ∧ 2 ≤ ([] : List ℚ).length) := by
            intro ⟨_, h2⟩
            simp at h2
          tauto
        · rw [fms_m1, first_move_start_none_iff cs _]
          have hnq : ¬((('m' : Char) = 'M' ∨ ('m' : Char) = 'm')
              ∧ 2 ≤ ([a0] : List ℚ).length) := by
            intro ⟨_, h2⟩
            simp at h2
          tauto
        · rw [fms_m2]
          have hq : (('m' : Char) = 'M' ∨ ('m' : Char) = 'm')
              ∧ 2 ≤ (a0 :: a1 :: extra : List ℚ).length := by
            refine ⟨Or.inr rfl, ?_⟩
            simp
          constructor
          · intro h
            cases h
          · intro h
            exact absurd (Or.inl hq) h
      · rw [fms_other _ _ _ _ hM hm, first_move_start_none_iff cs _]
        have hnq : ¬((c = 'M' ∨ c = 'm') ∧ 2 ≤ args.length) := by tauto
        tauto

/-- C10: `extract_endpoints` returns `none` exactly when the parsed command
list has no move command carrying at least two numeric arguments (not merely
when it is empty); when it returns a pair, the start point is the point
assigned by the first such move command and the end point is the current
point after replaying all commands. -/
theorem extract_endpoints_characterization (commands : List PathCmd) :
    (extract_endpoints_cmds commands = none ↔ ¬ has_qualifying_move commands)
    ∧ ∀ s e : Point, extract_endpoints_cmds commands = some (s, e) →
        first_move_start (⟨0, 0⟩, ⟨0, 0⟩) commands = some s
        ∧ e = replay_point commands := by
  cases commands with
  | nil =>
    constructor
    · constructor
      · intro _ ⟨pc, hpc, _⟩
        cases hpc
      · intro _
        rfl
    · intro s e h
      cases h
  | cons pc cs =>
    have hstart := extract_fold_start_none (pc :: cs) ⟨0, 0⟩ ⟨0, 0⟩
    have hcur := congrArg Prod.fst
      (extract_fold_cur_sub (pc :: cs) none ⟨0, 0⟩ ⟨0, 0⟩)
    rw [List.foldl_cons] at hstart hcur
    constructor
    · unfold extract_endpoints_cmds
      rw [← first_move_start_none_iff (pc :: cs) (⟨0, 0⟩, ⟨0, 0⟩), ← hstart]
      cases hs : (cs.foldl extractStep (extractStep ⟨none, ⟨0, 0⟩, ⟨0, 0⟩⟩ pc)).start with
      | none => simp [hs]
      | some s0 => simp [hs]
    · intro s e h
      unfold extract_endpoints_cmds at h
      simp only [List.foldl_cons] at h
      cases hs : (cs.foldl extractStep (extractStep ⟨none, ⟨0, 0⟩, ⟨0, 0⟩⟩ pc)).start with
      | none => simp [hs] at h
      | some s0 =>
        simp only [hs] at h
        have heq := Option.some_inj.mp h
        have hseq : s0 = s := congrArg Prod.fst heq
        have heeq : (cs.foldl extractStep (extractStep ⟨none, ⟨0, 0⟩, ⟨0, 0⟩⟩ pc)).cur = e :=
          congrArg Prod.snd heq
        constructor
        · rw [← hstart, hs, hseq]
        · rw [← heeq]
          unfold replay_point
          rw [← hcur]

/-- Witness for C10 on a concrete sequence whose first command is not a
move: extraction still succeeds from the later move. -/
theorem extract_endpoints_characterization_witness :
    first_move_start (⟨0, 0⟩, ⟨0, 0⟩)
        [('L', [5, 5]), ('m', [1, 2]), ('L', [3, 4])] = some ⟨6, 7⟩
    ∧ (⟨3, 4⟩ : Point) = replay_point [('L', [5, 5]), ('m', [1, 2]), ('L', [3, 4])] :=
  (extract_endpoints_characterization
      [('L', [5, 5]), ('m', [1, 2]), ('L', [3, 4])]).2 ⟨6, 7⟩ ⟨3, 4⟩ (by decide)

/-! ## C7: reversal involution on endpoints

Reversing a command list twice should reproduce a sequence with the same
endpoint pair.  The smooth shorthand commands break this (they are dropped,
see C3), so the involution is proven on single-subpath sequences made of an
absolute move and supported draw commands only. -/

/-- A supported draw command letter: one the reversal's first pass expands
into reversible entries (no moves, no smooth shorthand). -/
def is_draw (c : Char) : Prop :=
  c = 'L' ∨ c = 'l' ∨ c = 'H' ∨ c = 'h' ∨ c = 'V' ∨ c = 'v' ∨
  c = 'C' ∨ c = 'c' ∨ c = 'Q' ∨ c = 'q' ∨ c = 'A' ∨ c = 'a' ∨ c = 'Z' ∨ c = 'z'

instance (c : Char) : Decidable (is_draw c) :=
  inferInstanceAs (Decidable
    (c = 'L' ∨ c = 'l' ∨ c = 'H' ∨ c = 'h' ∨ c = 'V' ∨ c = 'v' ∨
      c = 'C' ∨ c = 'c' ∨ c = 'Q' ∨ c = 'q' ∨ c = 'A' ∨ c = 'a' ∨ c = 'Z' ∨ c = 'z'))

/-- Single-subpath well-formedness: an absolute move carrying exactly one
coordinate pair, followed by supported draw commands only. -/
def wf_single (cs : List PathCmd) : Prop :=
  match cs with
  | (c, args) :: rest => c = 'M' ∧ args.length = 2 ∧ ∀ pc ∈ rest, is_draw pc.1
  | [] => False

instance : (cs : List PathCmd) → Decidable (wf_single cs)
  | [] => isFalse fun h => h
  | (c, args) :: rest =>
    inferInstanceAs (Decidable (c = 'M' ∧ args.length = 2 ∧ ∀ pc ∈ rest, is_draw pc.1))

/-- An extended entry pass 2 of the reversal knows how to rewrite. -/
def revCmdOK (e : ExtCmd) : Prop :=
  e.cmd = 'L' ∨ e.cmd = 'C' ∨ e.cmd = 'Q' ∨ e.cmd = 'A' ∨ e.cmd = 'Z'

/-- The entries draw a connected chain from the first point to the last:
each entry starts where the previous one ended. -/
def chainFrom : Point → List ExtCmd → Point → Prop
  | p, [], q => p = q
  | p, e :: es, q => e.sp = p ∧ chainFrom e.ep es q

theorem chainFrom_append {p r q : Point} :
    ∀ {xs ys : List ExtCmd}, chainFrom p xs r → chainFrom r ys q →
      chainFrom p (xs ++ ys) q
  | [], ys, h1, h2 => by
    have hp : p = r := h1
    rw [List.nil_append, hp]
    exact h2
  | e :: xs, ys, h1, h2 =>
    ⟨h1.1, chainFrom_append h1.2 h2⟩

theorem chainFrom_getLast :
    ∀ (es : List ExtCmd) (p q : Point), chainFrom p es q →
      ∀ lst ∈ es.getLast?, lst.ep = q
  | [], _, _, _, _, hl => by cases hl
  | [e], p, q, h, lst, hl => by
    have : lst = e := by
      rw [List.getLast?_singleton, Option.mem_def, Option.some_inj] at hl
      exact hl.symm
    subst this
    exact h.2
  | e :: e2 :: es, p, q, h, lst, hl => by
    rw [List.getLast?_cons_cons] at hl
    exact chainFrom_getLast (e2 :: es) e.ep q h.2 lst hl

theorem mapThread_cons {α β σ : Type} (f : σ → α → β × σ) (s : σ) (a : α)
    (as : List α) :
    mapThread f s (a :: as)
      = ((f s a).1 :: (mapThread f (f s a).2 as).1,
          (mapThread f (f s a).2 as).2) := rfl

theorem buildExt_consL (cur sub : Point) (args : List ℚ) (rest : List PathCmd) :
    buildExt cur sub (('L', args) :: rest)
      = (mapThread lineAbsStep cur (chunks2 args)).1
        ++ buildExt (mapThread lineAbsStep cur (chunks2 args)).2 sub rest := rfl


theorem buildExt_consl (cur sub : Point) (args : List ℚ) (rest : List PathCmd) :
    buildExt cur sub (('l', args) :: rest)
      = (mapThread lineRelStep cur (chunks2 args)).1
        ++ buildExt (mapThread lineRelStep cur (chunks2 args)).2 sub rest := rfl

theorem buildExt_consH (cur sub : Point) (args : List ℚ) (rest : List PathCmd) :
    buildExt cur sub (('H', args) :: rest)
      = (mapThread hAbsStep cur (args)).1
        ++ buildExt (mapThread hAbsStep cur (args)).2 sub rest := rfl

theorem buildExt_consh (cur sub : Point) (args : List ℚ) (rest : List PathCmd) :
    buildExt cur sub (('h', args) :: rest)
      = (mapThread hRelStep cur (args)).1
        ++ buildExt (mapThread hRelStep cur (args)).2 sub rest := rfl

theorem buildExt_consV (cur sub : Point) (args : List ℚ) (rest : List PathCmd) :
    buildExt cur sub (('V', args) :: rest)
      = (mapThread vAbsStep cur (args)).1
        ++ buildExt (mapThread vAbsStep cur (args)).2 sub rest := rfl

theorem buildExt_consv (cur sub : Point) (args : List ℚ) (rest : List PathCmd) :
    buildExt cur sub (('v', args) :: rest)
      = (mapThread vRelStep cur (args)).1
        ++ buildExt (mapThread vRelStep cur (args)).2 sub rest := rfl

theorem buildExt_consC (cur sub : Point) (args : List ℚ) (rest : List PathCmd) :
    buildExt cur sub (('C', args) :: rest)
      = (mapThread cubicAbsStep cur (chunks6 args)).1
        ++ buildExt (mapThread cubicAbsStep cur (chunks6 args)).2 sub rest := rfl

theorem buildExt_consc (cur sub : Point) (args : List ℚ) (rest : List PathCmd) :
    buildExt cur sub (('c', args) :: rest)
      = (mapThread cubicRelStep cur (chunks6 args)).1
        ++ buildExt (mapThread cubicRelStep cur (chunks6 args)).2 sub rest := rfl

theorem buildExt_consQ (cur sub : Point) (args : List ℚ) (rest : List PathCmd) :
    buildExt cur sub (('Q', args) :: rest)
      = (mapThread quadAbsStep cur (chunks4 args)).1
        ++ buildExt (mapThread quadAbsStep cur (chunks4 args)).2 sub rest := rfl

theorem buildExt_consq (cur sub : Point) (args : List ℚ) (rest : List PathCmd) :
    buildExt cur sub (('q', args) :: rest)
      = (mapThread quadRelStep cur (chunks4 args)).1
        ++ buildExt (mapThread quadRelStep cur (chunks4 args)).2 sub rest := rfl

theorem buildExt_consA (cur sub : Point) (args : List ℚ) (rest : List PathCmd) :
    buildExt cur sub (('A', args) :: rest)
      = (mapThread arcAbsStep cur (chunks7 args)).1
        ++ buildExt (mapThread arcAbsStep cur (chunks7 args)).2 sub rest := rfl

theorem buildExt_consa (cur sub : Point) (args : List ℚ) (rest : List PathCmd) :
    buildExt cur sub (('a', args) :: rest)
      = (mapThread arcRelStep cur (chunks7 args)).1
        ++ buildExt (mapThread arcRelStep cur (chunks7 args)).2 sub rest := rfl

theorem buildExt_consZ (cur sub : Point) (args : List ℚ) (rest : List PathCmd) :
    buildExt cur sub (('Z', args) :: rest)
      = ⟨'Z', [], cur, sub⟩ :: buildExt sub sub rest := rfl

theorem buildExt_consz (cur sub : Point) (args : List ℚ) (rest : List PathCmd) :
    buildExt cur sub (('z', args) :: rest)
      = ⟨'Z', [], cur, sub⟩ :: buildExt sub sub rest := rfl

theorem replayEqL (cur sub : Point) (args : List ℚ) :
    replayStep (cur, sub) ('L', args) = ((chunks2 args).foldl (fun _ p => (⟨p.1, p.2⟩ : Point)) cur, sub) := rfl

theorem replayEql (cur sub : Point) (args : List ℚ) :
    replayStep (cur, sub) ('l', args) = ((chunks2 args).foldl (fun c p => (⟨radd c.x p.1, radd c.y p.2⟩ : Point)) cur, sub) := rfl

theorem replayEqH (cur sub : Point) (args : List ℚ) :
    replayStep (cur, sub) ('H', args) = ((match args.getLast? with
        | none => cur
        | some v => (⟨v, cur.y⟩ : Point)), sub) := by
  have h1 : replayStep (cur, sub) ('H', args)
      = ((extractH ⟨none, cur, sub⟩ args).cur, (extractH ⟨none, cur, sub⟩ args).sub) := rfl
  rw [h1]
  unfold extractH
  cases args.getLast? <;> rfl

theorem replayEqh (cur sub : Point) (args : List ℚ) :
    replayStep (cur, sub) ('h', args) = ((⟨args.foldl radd cur.x, cur.y⟩ : Point), sub) := rfl

theorem replayEqV (cur sub : Point) (args : List ℚ) :
    replayStep (cur, sub) ('V', args) = ((match args.getLast? with
        | none => cur
        | some v => (⟨cur.x, v⟩ : Point)), sub) := by
  have h1 : replayStep (cur, sub) ('V', args)
      = ((extractV ⟨none, cur, sub⟩ args).cur, (extractV ⟨none, cur, sub⟩ args).sub) := rfl
  rw [h1]
  unfold extractV
  cases args.getLast? <;> rfl

theorem replayEqv (cur sub : Point) (args : List ℚ) :
    replayStep (cur, sub) ('v', args) = ((⟨cur.x, args.foldl radd cur.y⟩ : Point), sub) := rfl

theorem replayEqC (cur sub : Point) (args : List ℚ) :
    replayStep (cur, sub) ('C', args) = ((chunks6 args).foldl (fun _ c => (⟨c.2.2.2.2.1, c.2.2.2.2.2⟩ : Point)) cur, sub) := rfl

theorem replayEqc (cur sub : Point) (args : List ℚ) :
    replayStep (cur, sub) ('c', args) = ((chunks6 args).foldl (fun p c => (⟨radd p.x c.2.2.2.2.1, radd p.y c.2.2.2.2.2⟩ : Point)) cur, sub) := rfl

theorem replayEqQ (cur sub : Point) (args : List ℚ) :
    replayStep (cur, sub) ('Q', args) = ((chunks4 args).foldl (fun _ c => (⟨c.2.2.1, c.2.2.2⟩ : Point)) cur, sub) := rfl

theorem replayEqq (cur sub : Point) (args : List ℚ) :
    replayStep (cur, sub) ('q', args) = ((chunks4 args).foldl (fun p c => (⟨radd p.x c.2.2.1, radd p.y c.2.2.2⟩ : Point)) cur, sub) := rfl

theorem replayEqA (cur sub : Point) (args : List ℚ) :
    replayStep (cur, sub) ('A', args) = ((chunks7 args).foldl (fun _ c => (⟨c.2.2.2.2.2.1, c.2.2.2.2.2.2⟩ : Point)) cur, sub) := rfl

theorem replayEqa (cur sub : Point) (args : List ℚ) :
    replayStep (cur, sub) ('a', args) = ((chunks7 args).foldl (fun p c => (⟨radd p.x c.2.2.2.2.2.1, radd p.y c.2.2.2.2.2.2⟩ : Point)) cur, sub) := rfl

theorem replayEqZ (cur sub : Point) (args : List ℚ) :
    replayStep (cur, sub) ('Z', args) = (sub, sub) := rfl

theorem replayEqz (cur sub : Point) (args : List ℚ) :
    replayStep (cur, sub) ('z', args) = (sub, sub) := rfl

theorem mapThread_chainFrom {α : Type} (f : Point → α → ExtCmd × Point)
    (hf : ∀ c a, (f c a).1.sp = c ∧ (f c a).1.ep = (f c a).2) :
    ∀ (l : List α) (cur : Point),
      chainFrom cur (mapThread f cur l).1 (mapThread f cur l).2
  | [], _ => rfl
  | a :: as, cur => by
    rw [mapThread_cons]
    refine ⟨(hf cur a).1, ?_⟩
    rw [(hf cur a).2]
    exact mapThread_chainFrom f hf as (f cur a).2

theorem mapThread_snd_eq {α : Type} (f : Point → α → ExtCmd × Point)
    (g : Point → α → Point) (hf : ∀ c a, (f c a).2 = g c a) :
    ∀ (l : List α) (cur : Point), (mapThread f cur l).2 = l.foldl g cur
  | [], _ => rfl
  | a :: as, cur => by
    rw [mapThread_cons, List.foldl_cons]
    show (mapThread f (f cur a).2 as).2 = as.foldl g (g cur a)
    rw [hf cur a]
    exact mapThread_snd_eq f g hf as (g cur a)

theorem mapThread_mem_ok {α : Type} (f : Point → α → ExtCmd × Point)
    (hf : ∀ c a, revCmdOK (f c a).1) :
    ∀ (l : List α) (cur : Point), ∀ e ∈ (mapThread f cur l).1, revCmdOK e
  | [], _, _, he => by cases he
  | a :: as, cur, e, he => by
    rw [mapThread_cons] at he
    rcases List.mem_cons.mp he with h | h
    · rw [h]
      exact hf cur a
    · exact mapThread_mem_ok f hf as (f cur a).2 e h

theorem foldl_hAbs : ∀ (args : List ℚ) (cur : Point),
    args.foldl (fun c v => (⟨v, c.y⟩ : Point)) cur
      = (match args.getLast? with
          | none => cur
          | some v => (⟨v, cur.y⟩ : Point))
  | [], _ => rfl
  | a :: as, cur => by
    rw [List.foldl_cons, foldl_hAbs as ⟨a, cur.y⟩]
    cases as with
    | nil => rfl
    | cons b bs =>
      rw [List.getLast?_cons_cons]
      cases h : (b :: bs).getLast? with
      | none => exact absurd h (by simp)
      | some v => rfl

theorem foldl_vAbs : ∀ (args : List ℚ) (cur : Point),
    args.foldl (fun c v => (⟨c.x, v⟩ : Point)) cur
      = (match args.getLast? with
          | none => cur
          | some v => (⟨cur.x, v⟩ : Point))
  | [], _ => rfl
  | a :: as, cur => by
    rw [List.foldl_cons, foldl_vAbs as ⟨cur.x, a⟩]
    cases as with
    | nil => rfl
    | cons b bs =>
      rw [List.getLast?_cons_cons]
      cases h : (b :: bs).getLast? with
      | none => exact absurd h (by simp)
      | some v => rfl

theorem foldl_hRel : ∀ (args : List ℚ) (cur : Point),
    args.foldl (fun c v => (⟨radd c.x v, c.y⟩ : Point)) cur
      = ⟨args.foldl radd cur.x, cur.y⟩
  | [], _ => rfl
  | a :: as, cur => by
    rw [List.foldl_cons, List.foldl_cons]
    exact foldl_hRel as ⟨radd cur.x a, cur.y⟩

theorem foldl_vRel : ∀ (args : List ℚ) (cur : Point),
    args.foldl (fun c v => (⟨c.x, radd c.y v⟩ : Point)) cur
      = ⟨cur.x, args.foldl radd cur.y⟩
  | [], _ => rfl
  | a :: as, cur => by
    rw [List.foldl_cons, List.foldl_cons]
    exact foldl_vRel as ⟨cur.x, radd cur.y a⟩

/-- Pass 1 on draw-only command lists: every produced entry is reversible,
the entries chain from the incoming current point to the replayed final
point, and the subpath start is never changed. -/
theorem replayFoldH (cur sub : Point) (args : List ℚ) :
    replayStep (cur, sub) ('H', args)
      = (args.foldl (fun c v => (⟨v, c.y⟩ : Point)) cur, sub) := by
  rw [foldl_hAbs]
  exact replayEqH cur sub args

theorem replayFoldV (cur sub : Point) (args : List ℚ) :
    replayStep (cur, sub) ('V', args)
      = (args.foldl (fun c v => (⟨c.x, v⟩ : Point)) cur, sub) := by
  rw [foldl_vAbs]
  exact replayEqV cur sub args

theorem buildExt_draws :
    ∀ (rest : List PathCmd), (∀ pc ∈ rest, is_draw pc.1) → ∀ (cur sub : Point),
      (∀ e ∈ buildExt cur sub rest, revCmdOK e)
      ∧ chainFrom cur (buildExt cur sub rest) (rest.foldl replayStep (cur, sub)).1
      ∧ (rest.foldl replayStep (cur, sub)).2 = sub
  | [], _, cur, sub => ⟨fun e he => absurd he (List.not_mem_nil e), rfl, rfl⟩
  | (c, args) :: rest, hd, cur, sub => by
    have hdr : ∀ pc ∈ rest, is_draw pc.1 := fun pc h => hd pc (List.mem_cons_of_mem _ h)
    have hdc : is_draw c := hd (c, args) (List.mem_cons_self _ _)
    rcases hdc with hc | hc | hc | hc | hc | hc | hc | hc | hc | hc | hc | hc | hc | hc
    · subst hc
      obtain ⟨ihok, ihchain, ihsub⟩ := buildExt_draws rest hdr ((chunks2 args).foldl (fun _ p => (⟨p.1, p.2⟩ : Point)) cur) sub
      rw [List.foldl_cons, replayEqL, buildExt_consL,
        mapThread_snd_eq lineAbsStep (fun _ p => (⟨p.1, p.2⟩ : Point)) (fun c a => rfl)]
      refine ⟨?_, chainFrom_append ?_ ihchain, ihsub⟩
      · intro e he
        rcases List.mem_append.mp he with h | h
        · exact mapThread_mem_ok lineAbsStep (fun c a => Or.inl rfl) _ _ e h
        · exact ihok e h
      · have hch := mapThread_chainFrom lineAbsStep (fun c a => ⟨rfl, rfl⟩) (chunks2 args) cur
        rwa [mapThread_snd_eq lineAbsStep (fun _ p => (⟨p.1, p.2⟩ : Point)) (fun c a => rfl)] at hch
    · subst hc
      obtain ⟨ihok, ihchain, ihsub⟩ := buildExt_draws rest hdr ((chunks2 args).foldl (fun c p => (⟨radd c.x p.1, radd c.y p.2⟩ : Point)) cur) sub
      rw [List.foldl_cons, replayEql, buildExt_consl,
        mapThread_snd_eq lineRelStep (fun c p => (⟨radd c.x p.1, radd c.y p.2⟩ : Point)) (fun c a => rfl)]
      refine ⟨?_, chainFrom_append ?_ ihchain, ihsub⟩
      · intro e he
        rcases List.mem_append.mp he with h | h
        · exact mapThread_mem_ok lineRelStep (fun c a => Or.inl rfl) _ _ e h
        · exact ihok e h
      · have hch := mapThread_chainFrom lineRelStep (fun c a => ⟨rfl, rfl⟩) (chunks2 args) cur
        rwa [mapThread_snd_eq lineRelStep (fun c p => (⟨radd c.x p.1, radd c.y p.2⟩ : Point)) (fun c a => rfl)] at hch
    · subst hc
      obtain ⟨ihok, ihchain, ihsub⟩ := buildExt_draws rest hdr (args.foldl (fun c v => (⟨v, c.y⟩ : Point)) cur) sub
      rw [List.foldl_cons, replayFoldH, buildExt_consH,
        mapThread_snd_eq hAbsStep (fun c v => (⟨v, c.y⟩ : Point)) (fun c a => rfl)]
      refine ⟨?_, chainFrom_append ?_ ihchain, ihsub⟩
      · intro e he
        rcases List.mem_append.mp he with h | h
        · exact mapThread_mem_ok hAbsStep (fun c a => Or.inl rfl) _ _ e h
        · exact ihok e h
      · have hch := mapThread_chainFrom hAbsStep (fun c a => ⟨rfl, rfl⟩) (args) cur
        rwa [mapThread_snd_eq hAbsStep (fun c v => (⟨v, c.y⟩ : Point)) (fun c a => rfl)] at hch
    · subst hc
      obtain ⟨ihok, ihchain, ihsub⟩ := buildExt_draws rest hdr (⟨args.foldl radd cur.x, cur.y⟩ : Point) sub
      rw [List.foldl_cons, replayEqh, buildExt_consh,
        mapThread_snd_eq hRelStep (fun c v => (⟨radd c.x v, c.y⟩ : Point)) (fun c a => rfl), foldl_hRel]
      refine ⟨?_, chainFrom_append ?_ ihchain, ihsub⟩
      · intro e he
        rcases List.mem_append.mp he with h | h
        · exact mapThread_mem_ok hRelStep (fun c a => Or.inl rfl) _ _ e h
        · exact ihok e h
      · have hch := mapThread_chainFrom hRelStep (fun c a => ⟨rfl, rfl⟩) (args) cur
        rwa [mapThread_snd_eq hRelStep (fun c v => (⟨radd c.x v, c.y⟩ : Point)) (fun c a => rfl), foldl_hRel] at hch
    · subst hc
      obtain ⟨ihok, ihchain, ihsub⟩ := buildExt_draws rest hdr (args.foldl (fun c v => (⟨c.x, v⟩ : Point)) cur) sub
      rw [List.foldl_cons, replayFoldV, buildExt_consV,
        mapThread_snd_eq vAbsStep (fun c v => (⟨c.x, v⟩ : Point)) (fun c a => rfl)]
      refine ⟨?_, chainFrom_append ?_ ihchain, ihsub⟩
      · intro e he
        rcases List.mem_append.mp he with h | h
        · exact mapThread_mem_ok vAbsStep (fun c a => Or.inl rfl) _ _ e h
        · exact ihok e h
      · have hch := mapThread_chainFrom vAbsStep (fun c a => ⟨rfl, rfl⟩) (args) cur
        rwa [mapThread_snd_eq vAbsStep (fun c v => (⟨c.x, v⟩ : Point)) (fun c a => rfl)] at hch
    · subst hc
      obtain ⟨ihok, ihchain, ihsub⟩ := buildExt_draws rest hdr (⟨cur.x, args.foldl radd cur.y⟩ : Point) sub
      rw [List.foldl_cons, replayEqv, buildExt_consv,
        mapThread_snd_eq vRelStep (fun c v => (⟨c.x, radd c.y v⟩ : Point)) (fun c a => rfl), foldl_vRel]
      refine ⟨?_, chainFrom_append ?_ ihchain, ihsub⟩
      · intro e he
        rcases List.mem_append.mp he with h | h
        · exact mapThread_mem_ok vRelStep (fun c a => Or.inl rfl) _ _ e h
        · exact ihok e h
      · have hch := mapThread_chainFrom vRelStep (fun c a => ⟨rfl, rfl⟩) (args) cur
        rwa [mapThread_snd_eq vRelStep (fun c v => (⟨c.x, radd c.y v⟩ : Point)) (fun c a => rfl), foldl_vRel] at hch
    · subst hc
      obtain ⟨ihok, ihchain, ihsub⟩ := buildExt_draws rest hdr ((chunks6 args).foldl (fun _ c => (⟨c.2.2.2.2.1, c.2.2.2.2.2⟩ : Point)) cur) sub
      rw [List.foldl_cons, replayEqC, buildExt_consC,
        mapThread_snd_eq cubicAbsStep (fun _ c => (⟨c.2.2.2.2.1, c.2.2.2.2.2⟩ : Point)) (fun c a => rfl)]
      refine ⟨?_, chainFrom_append ?_ ihchain, ihsub⟩
      · intro e he
        rcases List.mem_append.mp he with h | h
        · exact mapThread_mem_ok cubicAbsStep (fun c a => Or.inr (Or.inl rfl)) _ _ e h
        · exact ihok e h
      · have hch := mapThread_chainFrom cubicAbsStep (fun c a => ⟨rfl, rfl⟩) (chunks6 args) cur
        rwa [mapThread_snd_eq cubicAbsStep (fun _ c => (⟨c.2.2.2.2.1, c.2.2.2.2.2⟩ : Point)) (fun c a => rfl)] at hch
    · subst hc
      obtain ⟨ihok, ihchain, ihsub⟩ := buildExt_draws rest hdr ((chunks6 args).foldl (fun p c => (⟨radd p.x c.2.2.2.2.1, radd p.y c.2.2.2.2.2⟩ : Point)) cur) sub
      rw [List.foldl_cons, replayEqc, buildExt_consc,
        mapThread_snd_eq cubicRelStep (fun p c => (⟨radd p.x c.2.2.2.2.1, radd p.y c.2.2.2.2.2⟩ : Point)) (fun c a => rfl)]
      refine ⟨?_, chainFrom_append ?_ ihchain, ihsub⟩
      · intro e he
        rcases List.mem_append.mp he with h | h
        · exact mapThread_mem_ok cubicRelStep (fun c a => Or.inr (Or.inl rfl)) _ _ e h
        · exact ihok e h
      · have hch := mapThread_chainFrom cubicRelStep (fun c a => ⟨rfl, rfl⟩) (chunks6 args) cur
        rwa [mapThread_snd_eq cubicRelStep (fun p c => (⟨radd p.x c.2.2.2.2.1, radd p.y c.2.2.2.2.2⟩ : Point)) (fun c a => rfl)] at hch
    · subst hc
      obtain ⟨ihok, ihchain, ihsub⟩ := buildExt_draws rest hdr ((chunks4 args).foldl (fun _ c => (⟨c.2.2.1, c.2.2.2⟩ : Point)) cur) sub
      rw [List.foldl_cons, replayEqQ, buildExt_consQ,
        mapThread_snd_eq quadAbsStep (fun _ c => (⟨c.2.2.1, c.2.2.2⟩ : Point)) (fun c a => rfl)]
      refine ⟨?_, chainFrom_append ?_ ihchain, ihsub⟩
      · intro e he
        rcases List.mem_append.mp he with h | h
        · exact mapThread_mem_ok quadAbsStep (fun c a => Or.inr (Or.inr (Or.inl rfl))) _ _ e h
        · exact ihok e h
      · have hch := mapThread_chainFrom quadAbsStep (fun c a => ⟨rfl, rfl⟩) (chunks4 args) cur
        rwa [mapThread_snd_eq quadAbsStep (fun _ c => (⟨c.2.2.1, c.2.2.2⟩ : Point)) (fun c a => rfl)] at hch
    · subst hc
      obtain ⟨ihok, ihchain, ihsub⟩ := buildExt_draws rest hdr ((chunks4 args).foldl (fun p c => (⟨radd p.x c.2.2.1, radd p.y c.2.2.2⟩ : Point)) cur) sub
      rw [List.foldl_cons, replayEqq, buildExt_consq,
        mapThread_snd_eq quadRelStep (fun p c => (⟨radd p.x c.2.2.1, radd p.y c.2.2.2⟩ : Point)) (fun c a => rfl)]
      refine ⟨?_, chainFrom_append ?_ ihchain, ihsub⟩
      · intro e he
        rcases List.mem_append.mp he with h | h
        · exact mapThread_mem_ok quadRelStep (fun c a => Or.inr (Or.inr (Or.inl rfl))) _ _ e h
        · exact ihok e h
      · have hch := mapThread_chainFrom quadRelStep (fun c a => ⟨rfl, rfl⟩) (chunks4 args) cur
        rwa [mapThread_snd_eq quadRelStep (fun p c => (⟨radd p.x c.2.2.1, radd p.y c.2.2.2⟩ : Point)) (fun c a => rfl)] at hch
    · subst hc
      obtain ⟨ihok, ihchain, ihsub⟩ := buildExt_draws rest hdr ((chunks7 args).foldl (fun _ c => (⟨c.2.2.2.2.2.1, c.2.2.2.2.2.2⟩ : Point)) cur) sub
      rw [List.foldl_cons, replayEqA, buildExt_consA,
        mapThread_snd_eq arcAbsStep (fun _ c => (⟨c.2.2.2.2.2.1, c.2.2.2.2.2.2⟩ : Point)) (fun c a => rfl)]
      refine ⟨?_, chainFrom_append ?_ ihchain, ihsub⟩
      · intro e he
        rcases List.mem_append.mp he with h | h
        · exact mapThread_mem_ok arcAbsStep (fun c a => Or.inr (Or.inr (Or.inr (Or.inl rfl)))) _ _ e h
        · exact ihok e h
      · have hch := mapThread_chainFrom arcAbsStep (fun c a => ⟨rfl, rfl⟩) (chunks7 args) cur
        rwa [mapThread_snd_eq arcAbsStep (fun _ c => (⟨c.2.2.2.2.2.1, c.2.2.2.2.2.2⟩ : Point)) (fun c a => rfl)] at hch
    · subst hc
      obtain ⟨ihok, ihchain, ihsub⟩ := buildExt_draws rest hdr ((chunks7 args).foldl (fun p c => (⟨radd p.x c.2.2.2.2.2.1, radd p.y c.2.2.2.2.2.2⟩ : Point)) cur) sub
      rw [List.foldl_cons, replayEqa, buildExt_consa,
        mapThread_snd_eq arcRelStep (fun p c => (⟨radd p.x c.2.2.2.2.2.1, radd p.y c.2.2.2.2.2.2⟩ : Point)) (fun c a => rfl)]
      refine ⟨?_, chainFrom_append ?_ ihchain, ihsub⟩
      · intro e he
        rcases List.mem_append.mp he with h | h
        · exact mapThread_mem_ok arcRelStep (fun c a => Or.inr (Or.inr (Or.inr (Or.inl rfl)))) _ _ e h
        · exact ihok e h
      · have hch := mapThread_chainFrom arcRelStep (fun c a => ⟨rfl, rfl⟩) (chunks7 args) cur
        rwa [mapThread_snd_eq arcRelStep (fun p c => (⟨radd p.x c.2.2.2.2.2.1, radd p.y c.2.2.2.2.2.2⟩ : Point)) (fun c a => rfl)] at hch
    · subst hc
      obtain ⟨ihok, ihchain, ihsub⟩ := buildExt_draws rest hdr sub sub
      rw [List.foldl_cons, replayEqZ, buildExt_consZ]
      refine ⟨?_, ⟨rfl, ihchain⟩, ihsub⟩
      intro e he
      rcases List.mem_cons.mp he with h | h
      · rw [h]
        exact Or.inr (Or.inr (Or.inr (Or.inr rfl)))
      · exact ihok e h
    · subst hc
      obtain ⟨ihok, ihchain, ihsub⟩ := buildExt_draws rest hdr sub sub
      rw [List.foldl_cons, replayEqz, buildExt_consz]
      refine ⟨?_, ⟨rfl, ihchain⟩, ihsub⟩
      intro e he
      rcases List.mem_cons.mp he with h | h
      · rw [h]
        exact Or.inr (Or.inr (Or.inr (Or.inr rfl)))
      · exact ihok e h

/-- Pass 2 on one reversible entry: the emitted command moves the current
point to the entry's recorded start, leaving first-move and subpath state
untouched. -/
theorem revOne_sets (e : ExtCmd) (hok : revCmdOK e) (st : ExtractState) :
    (revOne e).foldl extractStep st = { st with cur := e.sp } := by
  rcases e with ⟨c, args, sp, ep⟩
  rcases hok with hc | hc | hc | hc | hc <;> subst hc <;> rfl

/-- Replaying the whole reversed block of drawing commands lands on the
first entry's start point. -/
theorem rev_block_eval :
    ∀ (es : List ExtCmd), (∀ e ∈ es, revCmdOK e) → ∀ e0, es.head? = some e0 →
      ∀ st : ExtractState,
        (es.reverse.flatMap revOne).foldl extractStep st = { st with cur := e0.sp }
  | [], _, _, h, _ => by cases h
  | e :: es, hok, e0, h, st => by
    have he : e0 = e := by
      rw [List.head?_cons, Option.some_inj] at h
      exact h.symm
    subst he
    rw [List.reverse_cons, List.flatMap_append, List.foldl_append]
    cases es with
    | nil =>
      simp only [List.reverse_nil, List.flatMap_nil, List.foldl_nil, List.flatMap_cons,
        List.append_nil]
      exact revOne_sets e0 (hok e0 (List.mem_cons_self _ _)) st
    | cons e1 es1 =>
      have hok1 : ∀ x ∈ e1 :: es1, revCmdOK x := fun x hx => hok x (List.mem_cons_of_mem _ hx)
      rw [rev_block_eval (e1 :: es1) hok1 e1 rfl st]
      simp only [List.flatMap_cons, List.flatMap_nil, List.append_nil]
      rw [revOne_sets e0 (hok e0 (List.mem_cons_self _ _))]

/-- Every command pass 2 emits is a supported draw command. -/
theorem revOne_draw (e : ExtCmd) : ∀ pc ∈ revOne e, is_draw pc.1 := by
  intro pc hpc
  unfold revOne at hpc
  by_cases h1 : e.cmd = 'L'
  · rw [if_pos h1] at hpc
    rw [List.mem_singleton.mp hpc]
    exact Or.inl rfl
  · rw [if_neg h1] at hpc
    by_cases h2 : e.cmd = 'C'
    · rw [if_pos h2] at hpc
      rw [List.mem_singleton.mp hpc]
      exact Or.inr (Or.inr (Or.inr (Or.inr (Or.inr (Or.inr (Or.inl rfl))))))
    · rw [if_neg h2] at hpc
      by_cases h3 : e.cmd = 'Q'
      · rw [if_pos h3] at hpc
        rw [List.mem_singleton.mp hpc]
        exact Or.inr (Or.inr (Or.inr (Or.inr (Or.inr (Or.inr (Or.inr (Or.inr
          (Or.inl rfl))))))))
      · rw [if_neg h3] at hpc
        by_cases h4 : e.cmd = 'A'
        · rw [if_pos h4] at hpc
          rw [List.mem_singleton.mp hpc]
          exact Or.inr (Or.inr (Or.inr (Or.inr (Or.inr (Or.inr (Or.inr (Or.inr
            (Or.inr (Or.inr (Or.inl rfl))))))))))
        · rw [if_neg h4] at hpc
          by_cases h5 : e.cmd = 'Z'
          · rw [if_pos h5] at hpc
            rw [List.mem_singleton.mp hpc]
            exact Or.inl rfl
          · rw [if_neg h5] at hpc
            exact absurd hpc (List.not_mem_nil pc)

/-- Reversible entries survive the non-move filter unchanged. -/
theorem filter_nonM (es : List ExtCmd) (hok : ∀ e ∈ es, revCmdOK e) :
    es.filter (fun e => e.cmd ≠ 'M') = es := by
  rw [List.filter_eq_self]
  intro e he
  rcases hok e he with hc | hc | hc | hc | hc <;> simp [hc]

theorem extract_cons_eq (pc : PathCmd) (cs : List PathCmd) :
    extract_endpoints_cmds (pc :: cs)
      = (match (cs.foldl extractStep (extractStep ⟨none, ⟨0, 0⟩, ⟨0, 0⟩⟩ pc)).start with
         | none => none
         | some s =>
           some (s, (cs.foldl extractStep (extractStep ⟨none, ⟨0, 0⟩, ⟨0, 0⟩⟩ pc)).cur)) := rfl

theorem reverse_cons_eq (pc : PathCmd) (cs : List PathCmd) :
    reverse_path_commands (pc :: cs)
      = (match (buildExt ⟨0, 0⟩ ⟨0, 0⟩ (pc :: cs)).getLast? with
         | none => []
         | some lastE =>
           match ((buildExt ⟨0, 0⟩ ⟨0, 0⟩ (pc :: cs)).filter
               (fun e2 => e2.cmd ≠ 'M')).getLast? with
           | none => [('M', [lastE.ep.x, lastE.ep.y])]
           | some lastD =>
             ('M', [lastD.ep.x, lastD.ep.y])
               :: ((buildExt ⟨0, 0⟩ ⟨0, 0⟩ (pc :: cs)).filter
                     (fun e2 => e2.cmd ≠ 'M')).reverse.flatMap revOne) := rfl

theorem buildExt_M2 (mx my : ℚ) (rest : List PathCmd) :
    buildExt ⟨0, 0⟩ ⟨0, 0⟩ (('M', [mx, my]) :: rest)
      = ⟨'M', [mx, my], ⟨0, 0⟩, ⟨mx, my⟩⟩ :: buildExt ⟨mx, my⟩ ⟨mx, my⟩ rest := rfl

theorem extractStep_M2 (mx my : ℚ) :
    extractStep ⟨none, ⟨0, 0⟩, ⟨0, 0⟩⟩ ('M', [mx, my])
      = ⟨some ⟨mx, my⟩, ⟨mx, my⟩, ⟨mx, my⟩⟩ := rfl

/-- One reversal of a well-formed single-subpath command list is itself
well-formed and swaps the extracted endpoint pair. -/
theorem reverse_wf (cs : List PathCmd) (hwf : wf_single cs) (s e : Point)
    (h : extract_endpoints_cmds cs = some (s, e)) :
    wf_single (reverse_path_commands cs)
    ∧ extract_endpoints_cmds (reverse_path_commands cs) = some (e, s) := by
  rcases cs with _ | ⟨⟨c, args⟩, rest⟩
  · exact hwf.elim
  obtain ⟨hc, hlen, hdr⟩ := hwf
  subst hc
  obtain ⟨mx, my, hargs⟩ := List.length_eq_two.mp hlen
  subst hargs
  obtain ⟨hok, hchain, hsub⟩ := buildExt_draws rest hdr ⟨mx, my⟩ ⟨mx, my⟩
  have hstart : (rest.foldl extractStep ⟨some ⟨mx, my⟩, ⟨mx, my⟩, ⟨mx, my⟩⟩).start
      = some ⟨mx, my⟩ := extract_fold_start_keep rest _ _ rfl
  have hcur : (rest.foldl extractStep ⟨some ⟨mx, my⟩, ⟨mx, my⟩, ⟨mx, my⟩⟩).cur
      = (rest.foldl replayStep (⟨mx, my⟩, ⟨mx, my⟩)).1 :=
    congrArg Prod.fst (extract_fold_cur_sub rest (some ⟨mx, my⟩) ⟨mx, my⟩ ⟨mx, my⟩)
  have hext : extract_endpoints_cmds (('M', [mx, my]) :: rest)
      = some (⟨mx, my⟩, (rest.foldl replayStep (⟨mx, my⟩, ⟨mx, my⟩)).1) := by
    rw [extract_cons_eq, extractStep_M2]
    simp only [hstart]
    rw [hcur]
  rw [hext] at h
  have hse := Option.some_inj.mp h
  have hsP : (⟨mx, my⟩ : Point) = s := congrArg Prod.fst hse
  have heP : (rest.foldl replayStep (⟨mx, my⟩, ⟨mx, my⟩)).1 = e := congrArg Prod.snd hse
  subst hsP
  subst heP
  cases hes : buildExt ⟨mx, my⟩ ⟨mx, my⟩ rest with
  | nil =>
    have hfin : (rest.foldl replayStep (⟨mx, my⟩, ⟨mx, my⟩)).1 = ⟨mx, my⟩ := by
      rw [hes] at hchain
      exact hchain.symm
    have hrv : reverse_path_commands (('M', [mx, my]) :: rest) = [('M', [mx, my])] := by
      rw [reverse_cons_eq, buildExt_M2, hes]
      rfl
    rw [hrv, hfin]
    exact ⟨⟨rfl, rfl, fun pc hpc => absurd hpc (List.not_mem_nil pc)⟩, rfl⟩
  | cons d ds =>
    rw [hes] at hok hchain
    cases hl : (d :: ds).getLast? with
    | none => exact absurd hl (by simp)
    | some lastD =>
      have hepD : lastD.ep = (rest.foldl replayStep (⟨mx, my⟩, ⟨mx, my⟩)).1 :=
        chainFrom_getLast (d :: ds) ⟨mx, my⟩ _ hchain lastD (Option.mem_def.mpr hl)
      have hfil : ((⟨'M', [mx, my], ⟨0, 0⟩, ⟨mx, my⟩⟩ : ExtCmd) :: d :: ds).filter
          (fun e2 => e2.cmd ≠ 'M') = d :: ds := by
        rw [List.filter_cons_of_neg (by simp), filter_nonM (d :: ds) hok]
      have hrv : reverse_path_commands (('M', [mx, my]) :: rest)
          = ('M', [lastD.ep.x, lastD.ep.y]) :: (d :: ds).reverse.flatMap revOne := by
        rw [reverse_cons_eq, buildExt_M2, hes, List.getLast?_cons_cons]
        simp only [hfil, hl]
      have hd_sp : d.sp = ⟨mx, my⟩ := hchain.1
      have hM : extractStep ⟨none, ⟨0, 0⟩, ⟨0, 0⟩⟩ ('M', [lastD.ep.x, lastD.ep.y])
          = ⟨some lastD.ep, lastD.ep, lastD.ep⟩ := rfl
      have heval : extract_endpoints_cmds
            (('M', [lastD.ep.x, lastD.ep.y]) :: (d :: ds).reverse.flatMap revOne)
          = some (lastD.ep, ⟨mx, my⟩) := by
        rw [extract_cons_eq, hM,
          rev_block_eval (d :: ds) hok d rfl ⟨some lastD.ep, lastD.ep, lastD.ep⟩, hd_sp]
      have hwf2 : wf_single
          (('M', [lastD.ep.x, lastD.ep.y]) :: (d :: ds).reverse.flatMap revOne) := by
        refine ⟨rfl, rfl, ?_⟩
        intro pc hpc
        obtain ⟨e2, _, hpc2⟩ := List.mem_flatMap.mp hpc
        exact revOne_draw e2 pc hpc2
      rw [hrv]
      refine ⟨hwf2, ?_⟩
      rw [heval, hepD]

/-- C7 counterexample: the claim quantifies over every segment command
text, but reversal silently drops smooth shorthand (see C3).  The sequence
"M 0 0 S 1 1 2 2" extracts the endpoint pair ((0,0),(2,2)), while its double
reversal collapses to a bare move and extracts ((0,0),(0,0)). -/
theorem reverse_involution_fails_on_smooth :
    extract_endpoints_cmds [('M', [0, 0]), ('S', [1, 1, 2, 2])]
      = some (⟨0, 0⟩, ⟨2, 2⟩)
    ∧ extract_endpoints_cmds (reverse_path_commands (reverse_path_commands
        [('M', [0, 0]), ('S', [1, 1, 2, 2])]))
      = some (⟨0, 0⟩, ⟨0, 0⟩) := by
  constructor
  · decide
  · decide

/-- C7 (corrected): for every single-subpath command list that starts with
an absolute move carrying one coordinate pair and otherwise contains only
supported draw commands (L/l, H/h, V/v, C/c, Q/q, A/a, Z/z — no smooth
shorthand and no further moves), reversing twice yields a command sequence
whose extracted endpoint pair equals the original's exactly. -/
theorem reverse_involution_endpoints (cs : List PathCmd) (hwf : wf_single cs)
    (s e : Point) (h : extract_endpoints_cmds cs = some (s, e)) :
    extract_endpoints_cmds (reverse_path_commands (reverse_path_commands cs))
      = some (s, e) := by
  obtain ⟨hwf1, h1⟩ := reverse_wf cs hwf s e h
  exact (reverse_wf (reverse_path_commands cs) hwf1 e s h1).2

/-- Witness for the amended C7 on a path mixing relative lines, a cubic and
a horizontal draw. -/
theorem reverse_involution_endpoints_witness :
    wf_single [('M', [0, 0]), ('l', [1, 0]), ('C', [2, 0, 3, 1, 3, 2]), ('H', [4])]
    ∧ extract_endpoints_cmds
        [('M', [0, 0]), ('l', [1, 0]), ('C', [2, 0, 3, 1, 3, 2]), ('H', [4])]
        = some (⟨0, 0⟩, ⟨4, 2⟩)
    ∧ extract_endpoints_cmds (reverse_path_commands (reverse_path_commands
        [('M', [0, 0]), ('l', [1, 0]), ('C', [2, 0, 3, 1, 3, 2]), ('H', [4])]))
        = some (⟨0, 0⟩, ⟨4, 2⟩) :=
  ⟨by decide, by decide,
    reverse_involution_endpoints _ (by decide) _ _ (by decide)⟩

end GuitarSvg
